import Mathlib

/-!
# Verification of the Kenya Gazette scanner core

Shallow embedding of the repository's JavaScript core
(`src/helpers/match.js`, `src/helpers/parse.js`, `src/helpers/db.js`,
and the route handlers) into Lean 4, together with proofs of the
spec claims about it.

Strings are modelled as `List Char` (JavaScript strings are sequences
of UTF-16 units; all inputs exercised here are plain Unicode code
points).  JavaScript numbers are modelled as `ℚ` (exact rationals in
place of IEEE floats).  Unicode NFD decomposition is modelled as the
identity on code points (exact on ASCII, which is the alphabet every
later pipeline stage restricts to); the combining-mark strip
`replace(/[̀-ͯ]/g, "")` is modelled faithfully as a filter.
-/

namespace Gazette

/-! ## JavaScript character primitives -/

/-- ASCII lowercase letter, the `a-z` character class. -/
def isAsciiLower (c : Char) : Bool := 'a' ≤ c && c ≤ 'z'

/-- ASCII uppercase letter, the `A-Z` character class. -/
def isAsciiUpper (c : Char) : Bool := 'A' ≤ c && c ≤ 'Z'

/-- ASCII letter, `A-Za-z`. -/
def isAsciiAlpha (c : Char) : Bool := isAsciiLower c || isAsciiUpper c

/-- ASCII digit, the `0-9` / `\d` character class. -/
def isDigitCh (c : Char) : Bool := '0' ≤ c && c ≤ '9'

/-- The JavaScript regex `\w` class: `[A-Za-z0-9_]`. -/
def isWordChar (c : Char) : Bool := isAsciiAlpha c || isDigitCh c || c == '_'

/-- JavaScript whitespace (`\s`), restricted to the code points the
repository's inputs can contain: space, tab, LF, VT, FF, CR, NBSP. -/
def isJsWs (c : Char) : Bool :=
  c.toNat == 32 || c.toNat == 9 || c.toNat == 10 || c.toNat == 11 ||
  c.toNat == 12 || c.toNat == 13 || c.toNat == 0xa0

/-- Combining diacritical mark, the `[̀-ͯ]` class. -/
def isCombining (c : Char) : Bool := 0x300 ≤ c.toNat && c.toNat ≤ 0x36f

/-! ## `normalizeName` (src/helpers/match.js lines 2-9)

```js
export const normalizeName = (name = "") =>
  String(name)
    .toLowerCase()
    .normalize("NFD")
    .replace(/[̀-ͯ]/g, "")
    .replace(/[^a-z\s]/g, " ")
    .replace(/\s+/g, " ")
    .trim();
```
-/

/-- Model of `String.prototype.toLowerCase`, character-wise (exact on ASCII). -/
def jsLower (s : List Char) : List Char := s.map Char.toLower

/-- Model of `.normalize("NFD").replace(/[̀-ͯ]/g, "")`: decomposition
is modelled as the identity on code points, the mark strip as a filter. -/
def stripMarks (s : List Char) : List Char := s.filter (fun c => !(isCombining c))

/-- Model of `.replace(/[^a-z\s]/g, " ")`: every character that is neither a
lowercase letter nor whitespace becomes a single space. -/
def sanitizeAZ (s : List Char) : List Char :=
  s.map (fun c => if isAsciiLower c || isJsWs c then c else ' ')

/-- Model of `.replace(/\s+/g, " ")`: each maximal whitespace run becomes one space. -/
def collapseWs : List Char → List Char
  | [] => []
  | [c] => [if isJsWs c then ' ' else c]
  | c :: d :: rest =>
    if isJsWs c && isJsWs d then collapseWs (d :: rest)
    else (if isJsWs c then ' ' else c) :: collapseWs (d :: rest)

/-- Model of `String.prototype.trim`. -/
def jsTrim (s : List Char) : List Char :=
  ((s.dropWhile isJsWs).reverse.dropWhile isJsWs).reverse

/-- The normalizeName pipeline on an actual string argument. -/
def normalizeName (s : List Char) : List Char :=
  jsTrim (collapseWs (sanitizeAZ (stripMarks (jsLower s))))

/-- A JavaScript argument position: `undefined`, `null`, or a string. -/
inductive JsVal where
  | undef : JsVal
  | null : JsVal
  | str : List Char → JsVal
deriving DecidableEq

/-- Entry point of `normalizeName` as called: the default parameter `name = ""` fires
only for `undefined`; `String(null)` is the four-character string
`"null"`. -/
def normalizeNameJs : JsVal → List Char
  | JsVal.undef => normalizeName []
  | JsVal.null => normalizeName ("null".toList)
  | JsVal.str s => normalizeName s

example : normalizeName "  JoHn   O,Brien  ".toList = "john o brien".toList := by decide

example : normalizeNameJs JsVal.null = "null".toList := by decide

/-! ### Shape of normalized output, and idempotence -/

/-- Characters that normalized output can contain: lowercase letters and space. -/
def azSpace (c : Char) : Bool := isAsciiLower c || c == ' '

/-- Invariant of `normalizeName` output: restricted alphabet, no two
adjacent whitespace characters, no whitespace at either end. -/
def NormOut (l : List Char) : Prop :=
  (∀ c ∈ l, azSpace c = true) ∧
  l.Chain' (fun a b => ¬(isJsWs a = true ∧ isJsWs b = true)) ∧
  (∀ c, l.head? = some c → isJsWs c = false) ∧
  (∀ c, l.getLast? = some c → isJsWs c = false)

lemma isAsciiLower_toNat {c : Char} (h : isAsciiLower c = true) :
    97 ≤ c.toNat ∧ c.toNat ≤ 122 := by
  simp only [isAsciiLower, Bool.and_eq_true, decide_eq_true_eq] at h
  exact ⟨h.1, h.2⟩

lemma isJsWs_toNat {c : Char} (h : isJsWs c = true) :
    c.toNat = 32 ∨ c.toNat = 9 ∨ c.toNat = 10 ∨ c.toNat = 11 ∨
    c.toNat = 12 ∨ c.toNat = 13 ∨ c.toNat = 160 := by
  simp only [isJsWs, Bool.or_eq_true, beq_iff_eq] at h
  omega

lemma isAsciiLower_not_ws {c : Char} (h : isAsciiLower c = true) :
    isJsWs c = false := by
  have hn := isAsciiLower_toNat h
  cases hw : isJsWs c
  · rfl
  · have := isJsWs_toNat hw; omega

lemma azSpace_ws_eq_space {c : Char} (h : azSpace c = true) (hw : isJsWs c = true) :
    c = ' ' := by
  simp only [azSpace, Bool.or_eq_true, beq_iff_eq] at h
  rcases h with h | h
  · exact absurd hw (by simp [isAsciiLower_not_ws h])
  · exact h

lemma toLower_azSpace {c : Char} (h : azSpace c = true) : Char.toLower c = c := by
  have hn : ¬(c.toNat ≥ 65 ∧ c.toNat ≤ 90) := by
    simp only [azSpace, Bool.or_eq_true, beq_iff_eq] at h
    rcases h with h | h
    · have := isAsciiLower_toNat h; omega
    · subst h; simp
  simp only [Char.toLower]
  rw [if_neg hn]

lemma not_combining_azSpace {c : Char} (h : azSpace c = true) :
    isCombining c = false := by
  simp only [azSpace, Bool.or_eq_true, beq_iff_eq] at h
  cases hc : isCombining c
  · rfl
  · simp only [isCombining, Bool.and_eq_true, decide_eq_true_eq] at hc
    rcases h with h | h
    · have := isAsciiLower_toNat h; omega
    · subst h
      have hsp : (' ').toNat = 32 := rfl
      omega

/-- Every character emitted by `sanitizeAZ` is a lowercase letter or whitespace. -/
lemma sanitizeAZ_mem {s : List Char} {c : Char} (hc : c ∈ sanitizeAZ s) :
    (isAsciiLower c || isJsWs c) = true := by
  simp only [sanitizeAZ, List.mem_map] at hc
  obtain ⟨x, -, hx⟩ := hc
  cases h : (isAsciiLower x || isJsWs x) with
  | true => simp only [h, if_true] at hx; subst hx; exact h
  | false => simp only [h, Bool.false_eq_true, if_false] at hx; subst hx; decide

/-- Every character emitted by `collapseWs` is a space or a non-whitespace
character of the input. -/
lemma collapseWs_mem {l : List Char} {c : Char} :
    c ∈ collapseWs l → c = ' ' ∨ (c ∈ l ∧ isJsWs c = false) := by
  induction l using collapseWs.induct with
  | case1 => intro hc; simp [collapseWs] at hc
  | case2 d =>
    intro hc
    simp only [collapseWs, List.mem_singleton] at hc
    subst hc
    cases hw : isJsWs d with
    | true => left; simp [hw]
    | false => right; simp [hw]
  | case3 d e rest h ih =>
    intro hc
    rw [show collapseWs (d :: e :: rest) = collapseWs (e :: rest) from by
      simp [collapseWs, h]] at hc
    rcases ih hc with h1 | ⟨h1, h2⟩
    · exact Or.inl h1
    · exact Or.inr ⟨List.mem_cons_of_mem d h1, h2⟩
  | case4 d e rest h ih =>
    intro hc
    have hb : (isJsWs d && isJsWs e) = false := by
      cases hx : (isJsWs d && isJsWs e)
      · rfl
      · exact absurd hx h
    rw [show collapseWs (d :: e :: rest)
        = (if isJsWs d then ' ' else d) :: collapseWs (e :: rest) from by
      simp [collapseWs, hb]] at hc
    rcases List.mem_cons.mp hc with hc | hc
    · subst hc
      cases hw : isJsWs d with
      | true => left; simp [hw]
      | false => right; simp [hw]
    · rcases ih hc with h1 | ⟨h1, h2⟩
      · exact Or.inl h1
      · exact Or.inr ⟨List.mem_cons_of_mem d h1, h2⟩

/-- Head of `collapseWs` on a list starting with a non-whitespace character. -/
lemma collapseWs_head_cons {d : Char} (rest : List Char) (hd : isJsWs d = false) :
    (collapseWs (d :: rest)).head? = some d := by
  cases rest with
  | nil => simp [collapseWs, hd]
  | cons e rest => simp [collapseWs, hd]

/-- Output of `collapseWs` never has two adjacent whitespace characters. -/
lemma collapseWs_chain (l : List Char) :
    (collapseWs l).Chain' (fun a b => ¬(isJsWs a = true ∧ isJsWs b = true)) := by
  induction l using collapseWs.induct with
  | case1 => simp [collapseWs]
  | case2 d => simp [collapseWs]
  | case3 d e rest h ih =>
    rw [show collapseWs (d :: e :: rest) = collapseWs (e :: rest) from by
      simp [collapseWs, h]]
    exact ih
  | case4 d e rest h ih =>
    have hb : (isJsWs d && isJsWs e) = false := by
      cases hx : (isJsWs d && isJsWs e)
      · rfl
      · exact absurd hx h
    rw [show collapseWs (d :: e :: rest)
        = (if isJsWs d then ' ' else d) :: collapseWs (e :: rest) from by
      simp [collapseWs, hb]]
    rw [List.chain'_cons']
    refine ⟨?_, ih⟩
    intro y hy
    cases hw : isJsWs d with
    | false =>
      simp only [hw, Bool.false_eq_true, if_false]
      intro hcon
      exact absurd hcon.1 (by simp [hw])
    | true =>
      have he : isJsWs e = false := by
        cases hx : isJsWs e
        · rfl
        · rw [hw, hx] at hb; simp at hb
      rw [collapseWs_head_cons rest he] at hy
      simp only [Option.mem_def, Option.some_inj] at hy
      subst hy
      intro hcon
      exact absurd hcon.2 (by simp [he])

/-- A head surviving `dropWhile` falsifies the predicate. -/
lemma head?_dropWhile_aux {p : Char → Bool} {l : List Char} {c : Char}
    (h : (l.dropWhile p).head? = some c) : p c = false := by
  induction l with
  | nil => simp [List.dropWhile] at h
  | cons x xs ih =>
    rw [List.dropWhile_cons] at h
    by_cases hx : p x = true
    · rw [if_pos hx] at h; exact ih h
    · rw [if_neg hx] at h
      simp only [List.head?_cons, Option.some_inj] at h
      subst h
      exact Bool.not_eq_true _ ▸ eq_false_of_ne_true hx

lemma dropWhile_eq_self_of_head {p : Char → Bool} {l : List Char}
    (h : ∀ c, l.head? = some c → p c = false) : l.dropWhile p = l := by
  cases l with
  | nil => rfl
  | cons x xs =>
    rw [List.dropWhile_cons, if_neg]
    simp [h x rfl]

lemma getLast?_dropWhile_ne_nil {p : Char → Bool} {l : List Char}
    (h : l.dropWhile p ≠ []) : (l.dropWhile p).getLast? = l.getLast? := by
  induction l with
  | nil => simp [List.dropWhile] at h
  | cons x xs ih =>
    rw [List.dropWhile_cons]
    by_cases hx : p x = true
    · rw [if_pos hx]
      rw [List.dropWhile_cons, if_pos hx] at h
      rw [ih h]
      cases xs with
      | nil => simp [List.dropWhile] at h
      | cons y ys => rw [List.getLast?_cons_cons]
    · rw [if_neg hx]

lemma chain'_dropWhile {R : Char → Char → Prop} {p : Char → Bool} {l : List Char}
    (h : l.Chain' R) : (l.dropWhile p).Chain' R := by
  induction l with
  | nil => exact h
  | cons x xs ih =>
    rw [List.dropWhile_cons]
    by_cases hx : p x = true
    · rw [if_pos hx]; exact ih h.tail
    · rw [if_neg hx]; exact h

lemma jsTrim_subset {l : List Char} {c : Char} (hc : c ∈ jsTrim l) : c ∈ l := by
  unfold jsTrim at hc
  rw [List.mem_reverse] at hc
  have h1 : c ∈ (l.dropWhile isJsWs).reverse :=
    List.Sublist.mem hc (List.dropWhile_sublist _)
  rw [List.mem_reverse] at h1
  exact List.Sublist.mem h1 (List.dropWhile_sublist _)

lemma jsTrim_chain {R : Char → Char → Prop} {l : List Char}
    (h : l.Chain' R) : (jsTrim l).Chain' R := by
  unfold jsTrim
  rw [List.chain'_reverse]
  apply chain'_dropWhile
  rw [List.chain'_reverse]
  exact List.Chain'.imp (fun a b hab => hab) (chain'_dropWhile h)

lemma jsTrim_getLast {l : List Char} {c : Char} (h : (jsTrim l).getLast? = some c) :
    isJsWs c = false := by
  unfold jsTrim at h
  rw [List.getLast?_reverse] at h
  exact head?_dropWhile_aux h

lemma jsTrim_head {l : List Char} {c : Char} (h : (jsTrim l).head? = some c) :
    isJsWs c = false := by
  unfold jsTrim at h
  rw [List.head?_reverse] at h
  have hne : List.dropWhile isJsWs (l.dropWhile isJsWs).reverse ≠ [] := by
    intro hnil; rw [hnil] at h; simp at h
  rw [getLast?_dropWhile_ne_nil hne, List.getLast?_reverse] at h
  exact head?_dropWhile_aux h

/-- Every `normalizeName` output satisfies the `NormOut` invariant. -/
lemma normalizeName_normOut (s : List Char) : NormOut (normalizeName s) := by
  unfold normalizeName
  refine ⟨?_, ?_, ?_, ?_⟩
  · intro c hc
    have h1 := jsTrim_subset hc
    rcases collapseWs_mem h1 with h2 | ⟨h2, h3⟩
    · simp [azSpace, h2]
    · have h4 := sanitizeAZ_mem h2
      simp only [Bool.or_eq_true] at h4
      rcases h4 with h4 | h4
      · simp [azSpace, h4]
      · rw [h4] at h3; cases h3
  · exact jsTrim_chain (collapseWs_chain _)
  · exact fun c h => jsTrim_head h
  · exact fun c h => jsTrim_getLast h

lemma jsLower_fix {l : List Char} (h : ∀ c ∈ l, azSpace c = true) : jsLower l = l := by
  unfold jsLower
  induction l with
  | nil => rfl
  | cons x xs ih =>
    rw [List.map_cons, toLower_azSpace (h x (List.mem_cons_self x xs)),
      ih (fun c hc => h c (List.mem_cons_of_mem x hc))]

lemma stripMarks_fix {l : List Char} (h : ∀ c ∈ l, azSpace c = true) :
    stripMarks l = l := by
  unfold stripMarks
  rw [List.filter_eq_self]
  intro c hc
  simp [not_combining_azSpace (h c hc)]

lemma sanitizeAZ_fix {l : List Char} (h : ∀ c ∈ l, azSpace c = true) :
    sanitizeAZ l = l := by
  unfold sanitizeAZ
  induction l with
  | nil => rfl
  | cons x xs ih =>
    rw [List.map_cons, ih (fun c hc => h c (List.mem_cons_of_mem x hc))]
    congr 1
    have hx := h x (List.mem_cons_self x xs)
    simp only [azSpace, Bool.or_eq_true, beq_iff_eq] at hx
    rcases hx with hx | hx
    · simp [hx]
    · subst hx; simp

lemma collapseWs_fix {l : List Char} :
    (∀ c ∈ l, azSpace c = true) →
    l.Chain' (fun a b => ¬(isJsWs a = true ∧ isJsWs b = true)) →
    collapseWs l = l := by
  induction l using collapseWs.induct with
  | case1 => intro _ _; rfl
  | case2 d =>
    intro hall _
    have hd := hall d (List.mem_singleton_self d)
    cases hw : isJsWs d with
    | true => simp [collapseWs, hw, azSpace_ws_eq_space hd hw]
    | false => simp [collapseWs, hw]
  | case3 d e rest h ih =>
    intro _ hch
    exfalso
    rw [List.chain'_cons] at hch
    simp only [Bool.and_eq_true] at h
    exact hch.1 h
  | case4 d e rest h ih =>
    intro hall hch
    have hb : (isJsWs d && isJsWs e) = false := by
      cases hx : (isJsWs d && isJsWs e)
      · rfl
      · exact absurd hx h
    rw [show collapseWs (d :: e :: rest)
        = (if isJsWs d then ' ' else d) :: collapseWs (e :: rest) from by
      simp [collapseWs, hb]]
    rw [List.chain'_cons] at hch
    rw [ih (fun c hc => hall c (List.mem_cons_of_mem d hc)) hch.2]
    congr 1
    cases hw : isJsWs d with
    | true => simp [hw, azSpace_ws_eq_space (hall d (List.mem_cons_self d _)) hw]
    | false => simp [hw]

lemma jsTrim_fix {l : List Char}
    (h1 : ∀ c, l.head? = some c → isJsWs c = false)
    (h2 : ∀ c, l.getLast? = some c → isJsWs c = false) : jsTrim l = l := by
  have e1 : l.dropWhile isJsWs = l := dropWhile_eq_self_of_head h1
  have e2 : l.reverse.dropWhile isJsWs = l.reverse := by
    apply dropWhile_eq_self_of_head
    intro c hc
    rw [List.head?_reverse] at hc
    exact h2 c hc
  unfold jsTrim
  rw [e1, e2, List.reverse_reverse]

/-- A string satisfying the output invariant is a fixed point of `normalizeName`. -/
lemma normalizeName_fix {l : List Char} (h : NormOut l) : normalizeName l = l := by
  obtain ⟨h1, h2, h3, h4⟩ := h
  unfold normalizeName
  rw [jsLower_fix h1, stripMarks_fix h1, sanitizeAZ_fix h1,
    collapseWs_fix h1 h2, jsTrim_fix h3 h4]

/-- Idempotence of `normalizeName`. -/
lemma normalizeName_idem (s : List Char) :
    normalizeName (normalizeName s) = normalizeName s :=
  normalizeName_fix (normalizeName_normOut s)

/-! ## `tokenizeName` (src/helpers/match.js lines 11-12)

```js
export const tokenizeName = (name = "") =>
  normalizeName(name).split(" ").filter(Boolean).sort().join(" ");
```
-/

/-- Model of `String.prototype.split` with a one-character separator,
generalized to a character predicate (the source splits on the literal
string of the single character given by `p`). -/
def splitP (p : Char → Bool) : List Char → List (List Char)
  | [] => [[]]
  | c :: rest =>
    let r := splitP p rest
    if p c then [] :: r
    else (c :: r.headD []) :: r.tail

/-- Lexicographic comparison of strings by code unit, the order used by
the default `Array.prototype.sort` comparator on strings. -/
def lexLe : List Char → List Char → Bool
  | [], _ => true
  | _ :: _, [] => false
  | a :: as, b :: bs => if a < b then true else if b < a then false else lexLe as bs

/-- Model of `Array.prototype.join(" ")`. -/
def joinSpace : List (List Char) → List Char
  | [] => []
  | [t] => t
  | t :: rest => t ++ ' ' :: joinSpace rest

/-- Stable insertion of `a` into `l`: `a` goes right before the first
element it compares `le` to. -/
def insertLe {α : Type} (le : α → α → Bool) (a : α) : List α → List α
  | [] => [a]
  | b :: l => if le a b then a :: b :: l else b :: insertLe le a l

/-- Model of `Array.prototype.sort(cmp)` for a consistent comparator:
ECMAScript requires a stable sort and leaves the algorithm open, so any
stable sort is the defined behavior; this is stable insertion sort. -/
def jsSort {α : Type} (le : α → α → Bool) : List α → List α
  | [] => []
  | a :: l => insertLe le a (jsSort le l)

lemma mem_insertLe {α : Type} {le : α → α → Bool} {a x : α} {l : List α} :
    x ∈ insertLe le a l ↔ x = a ∨ x ∈ l := by
  induction l with
  | nil => simp [insertLe]
  | cons b l ih =>
    by_cases h : le a b = true
    · simp [insertLe, h]
    · simp only [insertLe, if_neg h, List.mem_cons, ih]
      tauto

lemma mem_jsSort {α : Type} {le : α → α → Bool} {x : α} {l : List α} :
    x ∈ jsSort le l ↔ x ∈ l := by
  induction l with
  | nil => simp [jsSort]
  | cons a l ih => simp [jsSort, mem_insertLe, ih]

lemma length_jsSort {α : Type} {le : α → α → Bool} {l : List α} :
    (jsSort le l).length = l.length := by
  induction l with
  | nil => rfl
  | cons a l ih =>
    have hlen : ∀ (m : List α), (insertLe le a m).length = m.length + 1 := by
      intro m
      induction m with
      | nil => rfl
      | cons b m ihm =>
        by_cases h : le a b = true
        · simp [insertLe, h]
        · simp [insertLe, h, ihm]
    simp [jsSort, hlen, ih]

lemma insertLe_pairwise {α : Type} {le : α → α → Bool}
    (htrans : ∀ a b c, le a b = true → le b c = true → le a c = true)
    (htot : ∀ a b, le a b = true ∨ le b a = true)
    {l : List α} (hl : l.Pairwise (fun x y => le x y = true)) (a : α) :
    (insertLe le a l).Pairwise (fun x y => le x y = true) := by
  induction l with
  | nil => simp [insertLe]
  | cons b l ih =>
    rw [List.pairwise_cons] at hl
    by_cases h : le a b = true
    · rw [insertLe, if_pos h, List.pairwise_cons]
      refine ⟨?_, List.pairwise_cons.mpr hl⟩
      intro x hx
      rcases List.mem_cons.mp hx with hx | hx
      · subst hx; exact h
      · exact htrans a b x h (hl.1 x hx)
    · rw [insertLe, if_neg h, List.pairwise_cons]
      refine ⟨?_, ih hl.2⟩
      intro x hx
      rcases mem_insertLe.mp hx with hx | hx
      · subst hx
        rcases htot x b with hab | hba
        · exact absurd hab h
        · exact hba
      · exact hl.1 x hx

lemma jsSort_pairwise {α : Type} {le : α → α → Bool}
    (htrans : ∀ a b c, le a b = true → le b c = true → le a c = true)
    (htot : ∀ a b, le a b = true ∨ le b a = true)
    (l : List α) : (jsSort le l).Pairwise (fun x y => le x y = true) := by
  induction l with
  | nil => simp [jsSort]
  | cons a l ih => exact insertLe_pairwise htrans htot ih a

/-- Model of `tokenizeName`: split the normalized name on the literal
space character, drop empty fragments, sort, join with single spaces.
`Array.prototype.sort` is modelled by the stable `jsSort`. -/
def tokenizeName (s : List Char) : List Char :=
  joinSpace (jsSort lexLe ((splitP (fun c => c == ' ') (normalizeName s)).filter
    (fun t => !t.isEmpty)))

/-- Modelled from the spec's words for `tokenize` minus the fragment-length
drop (which the counterexample refutes): apply `normalize`, split on
whitespace, drop empty fragments, sort lexicographically, join with a
single space. -/
def specTokenize (s : List Char) : List Char :=
  joinSpace (jsSort lexLe ((splitP isJsWs (normalizeName s)).filter
    (fun t => !t.isEmpty)))

/-- Pipeline exactly as claim C5 words it: after normalizing and
splitting on whitespace, fragments that are empty or of length at most
one are dropped. -/
def claimTokenize (s : List Char) : List Char :=
  joinSpace (jsSort lexLe ((splitP isJsWs (normalizeName s)).filter
    (fun t => decide (1 < t.length))))

lemma splitP_congr {p q : Char → Bool} {l : List Char}
    (h : ∀ c ∈ l, p c = q c) : splitP p l = splitP q l := by
  induction l with
  | nil => rfl
  | cons c rest ih =>
    have hr := ih (fun x hx => h x (List.mem_cons_of_mem c hx))
    simp only [splitP, hr, h c (List.mem_cons_self c rest)]

/-- On `normalizeName` output, testing for the space character coincides
with the whitespace class. -/
lemma space_eq_ws_on_norm {s : List Char} {c : Char} (hc : c ∈ normalizeName s) :
    (c == ' ') = isJsWs c := by
  have h1 := (normalizeName_normOut s).1 c hc
  simp only [azSpace, Bool.or_eq_true, beq_iff_eq] at h1
  rcases h1 with h1 | h1
  · rw [isAsciiLower_not_ws h1]
    have := isAsciiLower_toNat h1
    cases hb : (c == ' ')
    · rfl
    · rw [beq_iff_eq] at hb; subst hb
      have : (' ').toNat = 32 := rfl
      omega
  · subst h1; rfl

/-- On normalized input, splitting on the literal space character and
splitting on the whitespace class coincide. -/
lemma tokenize_eq_spec (s : List Char) : tokenizeName s = specTokenize s := by
  unfold tokenizeName specTokenize
  rw [splitP_congr (fun c hc => space_eq_ws_on_norm hc)]

/-- Claim C5, counterexample: `tokenizeName` does not drop fragments of
length one — `filter(Boolean)` drops only empty fragments — so on
`"ab c"` the code keeps the token `"c"` while the claim's pipeline
(drop fragments of length at most 1) would discard it. -/
theorem C5_counterexample :
    tokenizeName "ab c".toList ≠ claimTokenize "ab c".toList ∧
    tokenizeName "ab c".toList = "ab c".toList ∧
    claimTokenize "ab c".toList = "ab".toList :=
  ⟨by decide, by decide, by decide⟩

/-- Claim C5, amended: `tokenizeName` equals the pipeline that applies
`normalizeName`, splits on whitespace, drops only empty fragments, sorts
lexicographically and joins with a single space; in particular it is
insensitive to word order. -/
theorem C5_amended :
    (∀ s : List Char, tokenizeName s = specTokenize s) ∧
    tokenizeName "John Otieno".toList = tokenizeName "Otieno John".toList :=
  ⟨tokenize_eq_spec, by decide⟩

/-- Claim C6, counterexample: `normalizeName(null)` is not the empty
string — the default parameter fires only for `undefined`, so `null` is
stringified to `"null"`, which normalizes to itself. -/
theorem C6_counterexample :
    normalizeNameJs JsVal.null = "null".toList ∧
    normalizeNameJs JsVal.null ≠ [] :=
  ⟨by decide, by decide⟩

/-- Claim C6, amended: `normalizeName` is idempotent on every string, and
returns the empty string for `undefined` or empty input; `null` input
instead yields the string `"null"`. -/
theorem C6_amended :
    (∀ s : List Char, normalizeName (normalizeName s) = normalizeName s) ∧
    normalizeNameJs JsVal.undef = [] ∧
    normalizeNameJs (JsVal.str []) = [] ∧
    normalizeNameJs JsVal.null = "null".toList :=
  ⟨normalizeName_idem, by decide, by decide, by decide⟩

/-! ## `jaccard` (src/helpers/match.js lines 49-55)

```js
export function jaccard(tokensA, tokensB) {
  const setA = new Set(tokensA.filter(Boolean));
  const setB = new Set(tokensB.filter(Boolean));
  const inter = [...setA].filter((x) => setB.has(x)).length;
  const union = new Set([...setA, ...setB]).size || 1;
  return inter / union;
}
```
-/

/-- First-occurrence de-duplication with an accumulator of already seen
elements: the observable content and iteration order of a JavaScript `Set`. -/
def dedupAux {α : Type} [DecidableEq α] : List α → List α → List α
  | _, [] => []
  | seen, x :: xs =>
    if x ∈ seen then dedupAux seen xs else x :: dedupAux (x :: seen) xs

/-- Model of `new Set(l)`, as a first-occurrence-ordered duplicate-free list. -/
def jsSet {α : Type} [DecidableEq α] (l : List α) : List α := dedupAux [] l

lemma mem_dedupAux {α : Type} [DecidableEq α] {y : α} :
    ∀ {seen l : List α}, y ∈ dedupAux seen l ↔ y ∈ l ∧ y ∉ seen := by
  intro seen l
  induction l generalizing seen with
  | nil => simp [dedupAux]
  | cons x xs ih =>
    by_cases hx : x ∈ seen
    · rw [dedupAux, if_pos hx, ih]
      constructor
      · exact fun h => ⟨List.mem_cons_of_mem x h.1, h.2⟩
      · rintro ⟨hy, hns⟩
        refine ⟨?_, hns⟩
        rcases List.mem_cons.mp hy with rfl | hy
        · exact absurd hx hns
        · exact hy
    · rw [dedupAux, if_neg hx]
      rw [List.mem_cons, ih]
      constructor
      · rintro (rfl | ⟨hy, hns⟩)
        · exact ⟨List.mem_cons_self y xs, hx⟩
        · refine ⟨List.mem_cons_of_mem x hy, fun hc => hns (List.mem_cons_of_mem x hc)⟩
      · rintro ⟨hy, hns⟩
        rcases List.mem_cons.mp hy with rfl | hy
        · exact Or.inl rfl
        · by_cases hyx : y = x
          · exact Or.inl hyx
          · right
            refine ⟨hy, fun hc => ?_⟩
            rcases List.mem_cons.mp hc with h1 | hc
            · exact hyx h1
            · exact hns hc

lemma nodup_dedupAux {α : Type} [DecidableEq α] :
    ∀ {seen l : List α}, (dedupAux seen l).Nodup := by
  intro seen l
  induction l generalizing seen with
  | nil => simp [dedupAux]
  | cons x xs ih =>
    by_cases hx : x ∈ seen
    · rw [dedupAux, if_pos hx]; exact ih
    · rw [dedupAux, if_neg hx, List.nodup_cons]
      refine ⟨fun hc => ?_, ih⟩
      exact (mem_dedupAux.mp hc).2 (List.mem_cons_self x _)

lemma mem_jsSet {α : Type} [DecidableEq α] {y : α} {l : List α} :
    y ∈ jsSet l ↔ y ∈ l := by
  rw [jsSet, mem_dedupAux]
  simp

lemma nodup_jsSet {α : Type} [DecidableEq α] {l : List α} : (jsSet l).Nodup :=
  nodup_dedupAux

/-- The truthiness filter `filter(Boolean)` (dropping exactly the empty
string) followed by `new Set`: the contents of `setA` / `setB`. -/
def jsSetOf (l : List (List Char)) : List (List Char) :=
  jsSet (l.filter (fun t => !t.isEmpty))

/-- Model of `new Set([...setA, ...setB]).size`. -/
def jaccardUnion (tokensA tokensB : List (List Char)) : ℕ :=
  (jsSet (jsSetOf tokensA ++ jsSetOf tokensB)).length

/-- Model of the divisor `union || 1`. -/
def jaccardDenom (tokensA tokensB : List (List Char)) : ℕ :=
  if jaccardUnion tokensA tokensB == 0 then 1 else jaccardUnion tokensA tokensB

/-- Model of `[...setA].filter((x) => setB.has(x)).length`. -/
def jaccardInter (tokensA tokensB : List (List Char)) : ℕ :=
  ((jsSetOf tokensA).filter (fun x => decide (x ∈ jsSetOf tokensB))).length

/-- Model of `jaccard`, over exact rationals. -/
def jaccard (tokensA tokensB : List (List Char)) : ℚ :=
  (jaccardInter tokensA tokensB : ℚ) / (jaccardDenom tokensA tokensB : ℚ)

lemma one_le_jaccardDenom (A B : List (List Char)) : 1 ≤ jaccardDenom A B := by
  unfold jaccardDenom
  split
  next => exact Nat.le_refl 1
  next h =>
    have hne : jaccardUnion A B ≠ 0 := by simpa using h
    omega

lemma jsSetOf_eq_nil {A : List (List Char)} (h : ∀ t ∈ A, t = []) :
    jsSetOf A = [] := by
  unfold jsSetOf
  have hf : A.filter (fun t => !t.isEmpty) = [] := by
    rw [List.filter_eq_nil_iff]
    intro t ht
    simp [h t ht]
  rw [hf]
  rfl

lemma nodup_jsSetOf {A : List (List Char)} : (jsSetOf A).Nodup := nodup_jsSet

lemma mem_jsSetOf {A : List (List Char)} {t : List Char} :
    t ∈ jsSetOf A ↔ t ∈ A ∧ t ≠ [] := by
  unfold jsSetOf
  rw [mem_jsSet, List.mem_filter]
  constructor
  · exact fun h => ⟨h.1, by simpa using h.2⟩
  · exact fun h => ⟨h.1, by simp [h.2]⟩

lemma jaccard_falsy {A B : List (List Char)}
    (hA : ∀ t ∈ A, t = []) : jaccard A B = 0 := by
  unfold jaccard jaccardInter
  rw [jsSetOf_eq_nil hA]
  simp

lemma jaccard_self_eq_one {A : List (List Char)} (h : ∃ t ∈ A, t ≠ []) :
    jaccard A A = 1 := by
  obtain ⟨t, htA, htne⟩ := h
  have htmem : t ∈ jsSetOf A := mem_jsSetOf.mpr ⟨htA, htne⟩
  have hne : jsSetOf A ≠ [] := by
    intro hnil
    rw [hnil] at htmem
    exact absurd htmem (List.not_mem_nil t)
  have hlen : (jsSetOf A).length ≠ 0 :=
    fun h0 => hne (List.length_eq_zero.mp h0)
  have hinter : jaccardInter A A = (jsSetOf A).length := by
    unfold jaccardInter
    rw [List.filter_eq_self.mpr (fun x hx => by simpa using hx)]
  have hunion : jaccardUnion A A = (jsSetOf A).length := by
    unfold jaccardUnion
    have h1 : (jsSet (jsSetOf A ++ jsSetOf A)).toFinset = (jsSetOf A).toFinset := by
      ext x
      simp [List.mem_toFinset, mem_jsSet, List.mem_append]
    calc (jsSet (jsSetOf A ++ jsSetOf A)).length
        = (jsSet (jsSetOf A ++ jsSetOf A)).toFinset.card :=
          (List.toFinset_card_of_nodup nodup_jsSet).symm
      _ = (jsSetOf A).toFinset.card := by rw [h1]
      _ = (jsSetOf A).length := List.toFinset_card_of_nodup nodup_jsSetOf
  have hdenom : jaccardDenom A A = (jsSetOf A).length := by
    unfold jaccardDenom
    rw [hunion, if_neg (by simp [hlen])]
  unfold jaccard
  rw [hinter, hdenom, div_self (Nat.cast_ne_zero.mpr hlen)]

/-- Claim C10: `jaccard` is total — the divisor is floored at 1, so there
is no division by zero; when both lists hold only falsy (empty) tokens the
result is 0, not 1; and `jaccard A A = 1` holds exactly when `A` contains
at least one non-empty token. -/
theorem C10_jaccard_total :
    (∀ A B : List (List Char), 1 ≤ jaccardDenom A B) ∧
    (∀ A B : List (List Char), (∀ t ∈ A, t = []) → (∀ t ∈ B, t = []) →
      jaccard A B = 0) ∧
    (∀ A : List (List Char), jaccard A A = 1 ↔ ∃ t ∈ A, t ≠ []) := by
  refine ⟨one_le_jaccardDenom, fun A B hA _ => jaccard_falsy hA, fun A => ⟨?_, jaccard_self_eq_one⟩⟩
  intro h1
  by_contra hno
  push_neg at hno
  rw [jaccard_falsy hno] at h1
  exact absurd h1 (by norm_num)

/-- Closed witness for C10 at concrete inputs. -/
theorem C10_jaccard_total_witness :
    1 ≤ jaccardDenom [] [] ∧
    jaccard [[], []] [[]] = 0 ∧
    jaccard ["ab".toList] ["ab".toList] = 1 :=
  ⟨C10_jaccard_total.1 [] [],
   C10_jaccard_total.2.1 [[], []] [[]] (by decide) (by decide),
   (C10_jaccard_total.2.2 ["ab".toList]).mpr ⟨"ab".toList, by decide, by decide⟩⟩

/-! ## `jaroWinkler` (src/helpers/match.js lines 58-122)

The two inner loops of `matchingCharacters` and `transpositions` share
the same greedy scan for the first unmatched `j` in the window with
`s1[i] === s2[j]`; the outer loops walk the characters of `s1` carrying
the absolute index `i`.
-/

/-- The window `Math.max(0, Math.floor(Math.max(len1, len2) / 2) - 1)`;
truncated subtraction models the clamp at 0. -/
def matchWindow (s1 s2 : List Char) : ℕ := max s1.length s2.length / 2 - 1

/-- Inner `j` loop: first `j` in `[start, stop)` with `!s2Matches[j] &&
s1[i] === s2[j]`.  The calls always keep `stop ≤ s2.length`, so the
`getD` defaults are never read. -/
def scanJ (s2 : List Char) (matched : List Bool) (c : Char) (start stop : ℕ) : Option ℕ :=
  (List.range' start (stop - start)).find?
    (fun j => !(matched.getD j true) && (s2.getD j (Char.ofNat 0) == c))

/-- Outer `i` loop of `matchingCharacters`, walking the characters of
`s1` and carrying `s2Matches` and the `matches` counter. -/
def mcAux (s2 : List Char) (w : ℕ) : List Char → ℕ → List Bool → ℕ → List Bool × ℕ
  | [], _, matched, cnt => (matched, cnt)
  | c :: rest, i, matched, cnt =>
    match scanJ s2 matched c (i - w) (min (i + w + 1) s2.length) with
    | some j => mcAux s2 w rest (i + 1) (matched.set j true) (cnt + 1)
    | none => mcAux s2 w rest (i + 1) matched cnt

/-- Model of `matchingCharacters`. -/
def matchingCharacters (s1 s2 : List Char) : ℕ :=
  (mcAux s2 (matchWindow s1 s2) s1 0 (List.replicate s2.length false) 0).2

/-- Outer `i` loop of `transpositions`, collecting `s1Matched` in order. -/
def tpAux (s2 : List Char) (w : ℕ) : List Char → ℕ → List Bool → List Char → List Bool × List Char
  | [], _, matched, acc => (matched, acc)
  | c :: rest, i, matched, acc =>
    match scanJ s2 matched c (i - w) (min (i + w + 1) s2.length) with
    | some j => tpAux s2 w rest (i + 1) (matched.set j true) (acc ++ [c])
    | none => tpAux s2 w rest (i + 1) matched acc

/-- Model of `transpositions`: rebuild `s1Matched` and `s2Matched`, count
positional mismatches, halve.  (`s1Matched` and `s2Matched` always have
equal length — both enumerate the same matched set — so the positional
loop is a `zip`.) -/
def transpositions (s1 s2 : List Char) : ℚ :=
  let r := tpAux s2 (matchWindow s1 s2) s1 0 (List.replicate s2.length false) []
  let s2Matched := ((s2.zip r.1).filter (fun q => q.2)).map Prod.fst
  let mismatches := ((r.2.zip s2Matched).filter (fun q => !(q.1 == q.2))).length
  (mismatches : ℚ) / 2

/-- Model of `commonPrefixLen(s1, s2, max)`. -/
def commonPrefixLen : List Char → List Char → ℕ → ℕ
  | a :: as, b :: bs, maxn + 1 =>
    if a == b then commonPrefixLen as bs maxn + 1 else 0
  | _, _, _ => 0

/-- The Jaro similarity `(m/len1 + m/len2 + (m - t)/m) / 3` (reached only
when `m ≠ 0`). -/
def jaro (s1 s2 : List Char) : ℚ :=
  ((matchingCharacters s1 s2 : ℚ) / s1.length
    + (matchingCharacters s1 s2 : ℚ) / s2.length
    + ((matchingCharacters s1 s2 : ℚ) - transpositions s1 s2)
        / matchingCharacters s1 s2) / 3

/-- Model of `jaroWinkler`: empty-string guards, zero-match guard, then
the Winkler prefix boost `jaro + prefixLen * 0.1 * (1 - jaro)`. -/
def jaroWinkler (s1 s2 : List Char) : ℚ :=
  if s1.isEmpty && s2.isEmpty then 1
  else if s1.isEmpty || s2.isEmpty then 0
  else if matchingCharacters s1 s2 = 0 then 0
  else jaro s1 s2 + (commonPrefixLen s1 s2 4 : ℚ) * (1 / 10) * (1 - jaro s1 s2)

/-! ### The greedy match on two identical strings matches index `i` to `i` -/

lemma find?_range'_eq_some (p : ℕ → Bool) (start n tgt : ℕ)
    (h1 : start ≤ tgt) (h2 : tgt < start + n)
    (hbefore : ∀ j, start ≤ j → j < tgt → p j = false)
    (htgt : p tgt = true) :
    (List.range' start n).find? p = some tgt := by
  induction n generalizing start with
  | zero => omega
  | succ n ih =>
    rw [List.range'_succ]
    by_cases he : start = tgt
    · subst he
      rw [List.find?_cons_of_pos _ htgt]
    · have hlt : start < tgt := lt_of_le_of_ne h1 he
      rw [List.find?_cons_of_neg _ (by simp [hbefore start le_rfl hlt])]
      exact ih (start + 1) hlt (by omega) (fun j hj1 hj2 => hbefore j (by omega) hj2)

/-- The matched-flag mask after `i` successful steps on identical strings. -/
def mask (i k : ℕ) : List Bool := List.replicate i true ++ List.replicate k false

lemma getD_mask_lt {i k j : ℕ} (h : j < i) : (mask i k).getD j true = true := by
  rw [mask, List.getD_eq_getElem?_getD, List.getElem?_append,
    if_pos (by simpa using h), List.getElem?_replicate, if_pos h]
  rfl

lemma getD_mask_eq {i k : ℕ} (hk : 0 < k) : (mask i k).getD i true = false := by
  rw [mask, List.getD_eq_getElem?_getD, List.getElem?_append, if_neg (by simp),
    List.length_replicate, Nat.sub_self, List.getElem?_replicate, if_pos hk]
  rfl

lemma set_mask {i k : ℕ} (hk : 0 < k) :
    (mask i k).set i true = mask (i + 1) (k - 1) := by
  obtain ⟨k, rfl⟩ : ∃ m, k = m + 1 := ⟨k - 1, by omega⟩
  rw [mask, List.set_append, if_neg (by simp), List.length_replicate, Nat.sub_self]
  rw [show List.replicate (k + 1) false = false :: List.replicate k false from rfl]
  rw [List.set_cons_zero, mask, List.replicate_succ']
  simp [List.append_assoc]

/-- On identical strings, the scan at step `i` (with all previous indices
matched) finds exactly index `i`. -/
lemma scanJ_self {x : List Char} {w i : ℕ} {c : Char} (hi : i < x.length)
    (hc : x[i]? = some c) :
    scanJ x (mask i (x.length - i)) c (i - w) (min (i + w + 1) x.length) = some i := by
  unfold scanJ
  apply find?_range'_eq_some _ _ _ i (Nat.sub_le i w) (by omega)
  · intro j hj1 hj2
    rw [getD_mask_lt hj2]
    rfl
  · rw [getD_mask_eq (by omega), List.getD_eq_getElem?_getD, hc]
    simp

lemma mcAux_self {x : List Char} {w : ℕ} :
    ∀ (suff : List Char) (i cnt : ℕ), suff = x.drop i → i ≤ x.length →
      mcAux x w suff i (mask i (x.length - i)) cnt
        = (List.replicate x.length true, cnt + (x.length - i)) := by
  intro suff
  induction suff with
  | nil =>
    intro i cnt hs hle
    have hi : i = x.length := by
      have := congrArg List.length hs
      simp [List.length_drop] at this
      omega
    subst hi
    rw [mcAux, Nat.sub_self]
    simp [mask]
  | cons c rest ih =>
    intro i cnt hs hle
    have hlen := congrArg List.length hs
    simp [List.length_drop] at hlen
    have hi : i < x.length := by omega
    have hc : x[i]? = some c := by
      have h0 : (x.drop i)[0]? = some c := by rw [← hs]; simp
      rwa [List.getElem?_drop, Nat.add_zero] at h0
    have hrest : rest = x.drop (i + 1) := by
      have := congrArg List.tail hs
      simpa [List.tail_drop] using this
    rw [mcAux, scanJ_self hi hc]
    dsimp only
    rw [set_mask (show 0 < x.length - i from by omega)]
    rw [show x.length - i - 1 = x.length - (i + 1) from by omega]
    rw [ih (i + 1) (cnt + 1) hrest (by omega)]
    congr 1
    omega

/-- `matchingCharacters` of a non-empty string with itself is its length. -/
lemma matchingCharacters_self (x : List Char) :
    matchingCharacters x x = x.length := by
  unfold matchingCharacters
  have h0 : mask 0 (x.length - 0) = List.replicate x.length false := by
    simp [mask]
  rw [← h0, mcAux_self x 0 0 (by simp) (Nat.zero_le _)]
  simp

lemma tpAux_self {x : List Char} {w : ℕ} :
    ∀ (suff : List Char) (i : ℕ) (acc : List Char), suff = x.drop i → i ≤ x.length →
      tpAux x w suff i (mask i (x.length - i)) acc
        = (List.replicate x.length true, acc ++ suff) := by
  intro suff
  induction suff with
  | nil =>
    intro i acc hs hle
    have hi : i = x.length := by
      have := congrArg List.length hs
      simp [List.length_drop] at this
      omega
    subst hi
    rw [tpAux, Nat.sub_self]
    simp [mask]
  | cons c rest ih =>
    intro i acc hs hle
    have hlen := congrArg List.length hs
    simp [List.length_drop] at hlen
    have hi : i < x.length := by omega
    have hc : x[i]? = some c := by
      have h0 : (x.drop i)[0]? = some c := by rw [← hs]; simp
      rwa [List.getElem?_drop, Nat.add_zero] at h0
    have hrest : rest = x.drop (i + 1) := by
      have := congrArg List.tail hs
      simpa [List.tail_drop] using this
    rw [tpAux, scanJ_self hi hc]
    dsimp only
    rw [set_mask (show 0 < x.length - i from by omega)]
    rw [show x.length - i - 1 = x.length - (i + 1) from by omega]
    rw [ih (i + 1) (acc ++ [c]) hrest (by omega)]
    simp

lemma zip_rep_true_filter (x : List Char) :
    ((x.zip (List.replicate x.length true)).filter (fun q => q.2)).map Prod.fst = x := by
  induction x with
  | nil => rfl
  | cons c cs ih => simpa [List.replicate_succ] using ih

lemma zip_self_no_mismatch (x : List Char) :
    ((x.zip x).filter (fun q => !(q.1 == q.2))).length = 0 := by
  induction x with
  | nil => rfl
  | cons c cs ih => simpa using ih

/-- `transpositions` of a string with itself is `0`. -/
lemma transpositions_self (x : List Char) : transpositions x x = 0 := by
  unfold transpositions
  have h0 : mask 0 (x.length - 0) = List.replicate x.length false := by simp [mask]
  rw [← h0, tpAux_self x 0 [] (by simp) (Nat.zero_le _)]
  simp only [List.nil_append]
  rw [zip_rep_true_filter, zip_self_no_mismatch]
  norm_num

/-- `jaroWinkler` of a non-empty string with itself is exactly `1`. -/
lemma jaroWinkler_self {x : List Char} (hx : x ≠ []) : jaroWinkler x x = 1 := by
  have hn : x.length ≠ 0 := fun h => hx (List.length_eq_zero.mp h)
  have hq : (x.length : ℚ) ≠ 0 := Nat.cast_ne_zero.mpr hn
  unfold jaroWinkler
  rw [if_neg (by simp [List.isEmpty_iff, hx]), if_neg (by simp [List.isEmpty_iff, hx])]
  rw [matchingCharacters_self, if_neg hn]
  have hj : jaro x x = 1 := by
    unfold jaro
    rw [matchingCharacters_self, transpositions_self]
    field_simp
    norm_num
  rw [hj]
  ring

/-- Claim C7: boundary values of `jaroWinkler` — identical non-empty
strings score 1, two empty strings score 1, and exactly one empty string
scores 0. -/
theorem C7_jaroWinkler_bounds :
    (∀ x : List Char, x ≠ [] → jaroWinkler x x = 1) ∧
    jaroWinkler [] [] = 1 ∧
    (∀ x : List Char, x ≠ [] → jaroWinkler x [] = 0 ∧ jaroWinkler [] x = 0) := by
  refine ⟨fun x hx => jaroWinkler_self hx, by decide, fun x hx => ⟨?_, ?_⟩⟩
  · unfold jaroWinkler
    rw [if_neg (by simp [List.isEmpty_iff, hx]), if_pos (by simp)]
  · unfold jaroWinkler
    rw [if_neg (by simp [List.isEmpty_iff, hx]), if_pos (by simp)]

/-- Closed witness for C7 at concrete strings. -/
theorem C7_jaroWinkler_bounds_witness :
    jaroWinkler "john".toList "john".toList = 1 ∧
    jaroWinkler "a".toList [] = 0 ∧ jaroWinkler [] "a".toList = 0 :=
  ⟨C7_jaroWinkler_bounds.1 _ (by decide),
   (C7_jaroWinkler_bounds.2.2 _ (by decide)).1,
   (C7_jaroWinkler_bounds.2.2 _ (by decide)).2⟩

/-! ## Persistence upsert (src/helpers/db.js, `saveMatchesToDB`)

The `gazette_matches` store is modelled as the ordered list of its rows;
the unique index `ux_gazette_match` is the invariant `keysUnique`.  The
`INSERT ... ON CONFLICT(...) DO UPDATE SET ...` statement becomes
`upsert1`; since no failing batch is modelled, the batching loop of
`saveMatchesToDB` is the plain left fold of `upsert1` over the input in
order.  Timestamps are out of scope.
-/

/-- The composite uniqueness key of `ux_gazette_match`. -/
structure RowKey where
  court_station : List Char
  cause_no : List Char
  name_norm : List Char
  date_published : List Char
  volume_no : List Char
deriving DecidableEq

/-- A persisted `gazette_matches` row (modulo id and timestamps). -/
structure Row where
  key : RowKey
  name_of_deceased : List Char
  excel_name : Option (List Char)
  match_type : Option (List Char)
  score : ℚ
  duplicate : ℕ
  status_at_gp : List Char
deriving DecidableEq

/-- One element of the `matches` argument, with `Option` marking the
nullable (`undefined`/`null`) positions and the empty list standing for
the other falsy string values. -/
structure Incoming where
  court_station : List Char
  cause_no : List Char
  name_norm : List Char
  name_of_deceased : List Char
  excel_name : Option (List Char)
  match_type : Option (List Char)
  score : Option ℚ
  duplicate : Bool
  status_at_gp : List Char
  volume_no : List Char
  date_published : List Char
deriving DecidableEq

/-- db.js's own fallback normalizer; its body is identical to
`normalizeName` of match.js. -/
def normalizeForDB (s : List Char) : List Char := normalizeName s

/-- The defensive fallback
`m.name_norm || normalizeForDB(m.name_of_deceased || "")`. -/
def incomingNameNorm (m : Incoming) : List Char :=
  if m.name_norm = [] then normalizeForDB m.name_of_deceased else m.name_norm

/-- The default `m.status_at_gp || "Published"`. -/
def incomingStatus (m : Incoming) : List Char :=
  if m.status_at_gp = [] then "Published".toList else m.status_at_gp

/-- The default `Number(m.score ?? 0)`. -/
def incomingScore (m : Incoming) : ℚ := m.score.getD 0

/-- The `x || null` defaults of `excel_name` / `match_type`: an empty
string is also mapped to null. -/
def orNull (o : Option (List Char)) : Option (List Char) :=
  match o with
  | some s => if s = [] then none else some s
  | none => none

/-- The composite key the statement binds for `m`. -/
def incomingKey (m : Incoming) : RowKey :=
  { court_station := m.court_station
    cause_no := m.cause_no
    name_norm := incomingNameNorm m
    date_published := m.date_published
    volume_no := m.volume_no }

/-- The row the plain `INSERT` branch stores (the `excluded` row). -/
def newRow (m : Incoming) : Row :=
  { key := incomingKey m
    name_of_deceased := m.name_of_deceased
    excel_name := orNull m.excel_name
    match_type := orNull m.match_type
    score := incomingScore m
    duplicate := if m.duplicate then 1 else 0
    status_at_gp := incomingStatus m }

/-- The `DO UPDATE SET` clause: escalate status only to `'Approved'`,
`COALESCE` the optional fields, keep the maximum score. -/
def applyConflict (old excluded : Row) : Row :=
  { old with
    status_at_gp :=
      if excluded.status_at_gp = "Approved".toList then "Approved".toList
      else old.status_at_gp
    excel_name :=
      match excluded.excel_name with
      | some v => some v
      | none => old.excel_name
    match_type :=
      match excluded.match_type with
      | some v => some v
      | none => old.match_type
    score := max old.score excluded.score }

/-- One run of the prepared statement on one `m` (the conflict target is
the inserted row's composite key, `(newRow m).key = incomingKey m`). -/
def upsert1 (db : List Row) (m : Incoming) : List Row :=
  if db.any (fun r => r.key == incomingKey m)
  then db.map (fun r => if r.key == incomingKey m then applyConflict r (newRow m) else r)
  else db ++ [newRow m]

/-- `saveMatchesToDB`, as the store transformation it performs (`ms` is
the source's `matches` argument; `matches` is a reserved word here). -/
def saveMatchesToDB (db : List Row) (ms : List Incoming) : List Row :=
  ms.foldl upsert1 db

/-- Row lookup by composite key (first match). -/
def findRow (db : List Row) (k : RowKey) : Option Row :=
  db.find? (fun r => r.key == k)

/-- The unique-index invariant: no two rows share the composite key. -/
def keysUnique (db : List Row) : Prop := (db.map Row.key).Nodup

/-- Number of stored rows with key `k`. -/
def countKey (db : List Row) (k : RowKey) : ℕ :=
  db.countP (fun r => r.key == k)

lemma find?_map_update_eq {k : RowKey} {f : Row → Row}
    (hf : ∀ r, (f r).key = r.key) :
    ∀ db : List Row,
      (db.map (fun r => if r.key == k then f r else r)).find? (fun r => r.key == k)
        = (db.find? (fun r => r.key == k)).map f
  | [] => rfl
  | r :: rest => by
    by_cases hr : (r.key == k) = true
    · rw [List.map_cons, if_pos hr,
        @List.find?_cons_of_pos _ (fun r => r.key == k) (f r)
          (rest.map (fun r => if r.key == k then f r else r))
          (by show ((f r).key == k) = true; rw [hf r]; exact hr),
        @List.find?_cons_of_pos _ (fun r => r.key == k) r rest hr]
      rfl
    · rw [List.map_cons, if_neg hr,
        @List.find?_cons_of_neg _ (fun r => r.key == k) r
          (rest.map (fun r => if r.key == k then f r else r)) hr,
        @List.find?_cons_of_neg _ (fun r => r.key == k) r rest hr,
        find?_map_update_eq hf rest]

lemma find?_map_update_ne {km k : RowKey} {f : Row → Row}
    (hf : ∀ r, (f r).key = r.key) (hne : km ≠ k) :
    ∀ db : List Row,
      (db.map (fun r => if r.key == km then f r else r)).find? (fun r => r.key == k)
        = db.find? (fun r => r.key == k)
  | [] => rfl
  | r :: rest => by
    by_cases hr : (r.key == km) = true
    · have hrk : (r.key == k) = false := by
        rw [beq_iff_eq] at hr
        simp [beq_iff_eq, hr, hne]
      rw [List.map_cons, if_pos hr,
        @List.find?_cons_of_neg _ (fun r => r.key == k) (f r)
          (rest.map (fun r => if r.key == km then f r else r))
          (by show ¬((f r).key == k) = true; rw [hf r]; simp [hrk]),
        @List.find?_cons_of_neg _ (fun r => r.key == k) r rest (by simp [hrk]),
        find?_map_update_ne hf hne rest]
    · by_cases hk : (r.key == k) = true
      · rw [List.map_cons, if_neg hr,
          @List.find?_cons_of_pos _ (fun r => r.key == k) r
            (rest.map (fun r => if r.key == km then f r else r)) hk,
          @List.find?_cons_of_pos _ (fun r => r.key == k) r rest hk]
      · rw [List.map_cons, if_neg hr,
          @List.find?_cons_of_neg _ (fun r => r.key == k) r
            (rest.map (fun r => if r.key == km then f r else r)) hk,
          @List.find?_cons_of_neg _ (fun r => r.key == k) r rest hk,
          find?_map_update_ne hf hne rest]

/-- Upserting `m` leaves, at `m`'s key, the conflict-updated row when the
key existed and the fresh row otherwise — no uniqueness assumption needed. -/
lemma findRow_upsert1_self (db : List Row) (m : Incoming) :
    findRow (upsert1 db m) (incomingKey m)
      = some (match findRow db (incomingKey m) with
              | some r => applyConflict r (newRow m)
              | none => newRow m) := by
  unfold upsert1 findRow
  by_cases hany : (db.any (fun r => r.key == incomingKey m)) = true
  · rw [if_pos hany,
      @find?_map_update_eq (incomingKey m) (fun r => applyConflict r (newRow m))
        (fun r => rfl) db]
    cases hfind : db.find? (fun r => r.key == incomingKey m) with
    | some r => rfl
    | none =>
      exfalso
      rw [List.find?_eq_none] at hfind
      obtain ⟨r, hr, hpr⟩ := List.any_eq_true.mp hany
      exact hfind r hr hpr
  · rw [if_neg hany, List.find?_append]
    have hnone : db.find? (fun r => r.key == incomingKey m) = none := by
      rw [List.find?_eq_none]
      intro r hr hpr
      exact hany (List.any_eq_true.mpr ⟨r, hr, hpr⟩)
    rw [hnone]
    rw [@List.find?_cons_of_pos _ (fun r => r.key == incomingKey m) (newRow m) []
      (beq_self_eq_true (incomingKey m))]
    rfl

/-- Upserting `m` does not change the row stored at any other key. -/
lemma findRow_upsert1_ne (db : List Row) (m : Incoming) (k : RowKey)
    (hk : k ≠ incomingKey m) :
    findRow (upsert1 db m) k = findRow db k := by
  unfold upsert1 findRow
  by_cases hany : (db.any (fun r => r.key == incomingKey m)) = true
  · rw [if_pos hany,
      @find?_map_update_ne (incomingKey m) k (fun r => applyConflict r (newRow m))
        (fun r => rfl) (fun h => hk h.symm) db]
  · rw [if_neg hany, List.find?_append]
    have h2 : List.find? (fun r => r.key == k) [newRow m] = none := by
      rw [List.find?_eq_none]
      intro r hr
      rw [List.mem_singleton] at hr
      subst hr
      simp [beq_iff_eq]
      exact fun h => hk h.symm
    rw [h2]
    exact Option.or_none

/-- `upsert1` preserves the unique-index invariant. -/
lemma keysUnique_upsert1 {db : List Row} (m : Incoming) (hu : keysUnique db) :
    keysUnique (upsert1 db m) := by
  unfold upsert1
  by_cases hany : (db.any (fun r => r.key == incomingKey m)) = true
  · rw [if_pos hany]
    unfold keysUnique at hu ⊢
    have hkeys :
        (db.map (fun r => if r.key == incomingKey m then applyConflict r (newRow m) else r)).map Row.key
          = db.map Row.key := by
      rw [List.map_map]
      apply List.map_congr_left
      intro r _
      show (if r.key == incomingKey m then applyConflict r (newRow m) else r).key = r.key
      by_cases hr : (r.key == incomingKey m) = true
      · rw [if_pos hr]
        rfl
      · rw [if_neg hr]
    rw [hkeys]
    exact hu
  · rw [if_neg hany]
    unfold keysUnique at hu ⊢
    rw [List.map_append, List.nodup_append]
    refine ⟨hu, by simp, ?_⟩
    intro a ha hb
    simp only [List.map_cons, List.map_nil, List.mem_singleton] at hb
    subst hb
    obtain ⟨r, hr, hknorm⟩ := List.mem_map.mp ha
    exact hany (List.any_eq_true.mpr ⟨r, hr, by rw [beq_iff_eq, hknorm]; rfl⟩)

/-- After an upsert the upserted key is present. -/
lemma upsert1_key_mem (db : List Row) (m : Incoming) :
    ∃ r ∈ upsert1 db m, r.key = incomingKey m := by
  unfold upsert1
  by_cases hany : (db.any (fun r => r.key == incomingKey m)) = true
  · rw [if_pos hany]
    obtain ⟨r, hr, hpr⟩ := List.any_eq_true.mp hany
    rw [beq_iff_eq] at hpr
    refine ⟨applyConflict r (newRow m), ?_, hpr⟩
    have : (if (r.key == incomingKey m) = true then applyConflict r (newRow m) else r)
        = applyConflict r (newRow m) := by
      rw [if_pos (by simp [beq_iff_eq, hpr])]
    exact this ▸ List.mem_map_of_mem _ hr
  · rw [if_neg hany]
    exact ⟨newRow m, List.mem_append_right _ (List.mem_singleton_self _), rfl⟩

/-- Upserts never remove a key. -/
lemma upsert1_key_mono (db : List Row) (m : Incoming) (k : RowKey)
    (h : ∃ r ∈ db, r.key = k) : ∃ r ∈ upsert1 db m, r.key = k := by
  obtain ⟨r, hr, hk⟩ := h
  unfold upsert1
  by_cases hany : (db.any (fun r => r.key == incomingKey m)) = true
  · rw [if_pos hany]
    by_cases hcase : (r.key == incomingKey m) = true
    · refine ⟨applyConflict r (newRow m), ?_, hk⟩
      have : (if (r.key == incomingKey m) = true then applyConflict r (newRow m) else r)
          = applyConflict r (newRow m) := by rw [if_pos hcase]
      exact this ▸ List.mem_map_of_mem _ hr
    · refine ⟨r, ?_, hk⟩
      have : (if (r.key == incomingKey m) = true then applyConflict r (newRow m) else r) = r := by
        rw [if_neg hcase]
      exact this ▸ List.mem_map_of_mem _ hr
  · rw [if_neg hany]
    exact ⟨r, List.mem_append_left _ hr, hk⟩

/-- With unique keys, a present key is stored in exactly one row. -/
lemma countKey_eq_one {db : List Row} {k : RowKey} (hu : keysUnique db)
    (hp : ∃ r ∈ db, r.key = k) : countKey db k = 1 := by
  unfold countKey
  have h1 : db.countP (fun r => r.key == k) = (db.map Row.key).countP (fun x => x == k) := by
    rw [List.countP_map]
    rfl
  have h2 : (db.map Row.key).countP (fun x => x == k) = (db.map Row.key).count k := by
    rw [List.count]
  rw [h1, h2]
  apply List.count_eq_one_of_mem hu
  obtain ⟨r, hr, hk⟩ := hp
  exact hk ▸ List.mem_map_of_mem Row.key hr

/-- Folding upserts from a unique-key store keeps keys unique and makes
every upserted key present. -/
lemma saveMatches_invariant :
    ∀ (ms : List Incoming) (db : List Row), keysUnique db →
      keysUnique (saveMatchesToDB db ms) ∧
      (∀ m ∈ ms, ∃ r ∈ saveMatchesToDB db ms, r.key = incomingKey m)
  | [], db, hu => ⟨hu, by simp⟩
  | m :: rest, db, hu => by
    have hstep : saveMatchesToDB db (m :: rest) = saveMatchesToDB (upsert1 db m) rest := rfl
    have ih := saveMatches_invariant rest (upsert1 db m) (keysUnique_upsert1 m hu)
    rw [hstep]
    refine ⟨ih.1, ?_⟩
    intro m' hm'
    rcases List.mem_cons.mp hm' with rfl | hm'
    · -- key of m survives the remaining upserts
      have hpres : ∀ (ms' : List Incoming) (db' : List Row) (k : RowKey),
          (∃ r ∈ db', r.key = k) → ∃ r ∈ saveMatchesToDB db' ms', r.key = k := by
        intro ms'
        induction ms' with
        | nil => intro db' k h; exact h
        | cons m2 rest2 ih2 =>
          intro db' k h
          exact ih2 (upsert1 db' m2) k (upsert1_key_mono db' m2 k h)
      exact hpres rest (upsert1 db m') (incomingKey m') (upsert1_key_mem db m')
    · exact ih.2 m' hm'

/-- The effective scores of the upserts addressed to key `k`, in order. -/
def scoresAt (ms : List Incoming) (k : RowKey) : List ℚ :=
  (ms.filter (fun m => incomingKey m == k)).map incomingScore

lemma scoresAt_cons (m : Incoming) (ms : List Incoming) (k : RowKey) :
    scoresAt (m :: ms) k
      = if incomingKey m == k then incomingScore m :: scoresAt ms k
        else scoresAt ms k := by
  unfold scoresAt
  rw [List.filter_cons]
  by_cases h : (incomingKey m == k) = true
  · rw [if_pos h, if_pos h, List.map_cons]
  · rw [if_neg h, if_neg h]

/-- Where the stored score comes from, over a whole fold of upserts:
if the key was absent initially, the final score is one of the observed
scores and dominates all of them; if a row was present, the final score
is the old one or an observed one, and dominates both. -/
lemma scoreFold (ms : List Incoming) :
    ∀ (db : List Row) (k : RowKey) (r' : Row),
      findRow (saveMatchesToDB db ms) k = some r' →
      (findRow db k = none →
        r'.score ∈ scoresAt ms k ∧ ∀ s ∈ scoresAt ms k, s ≤ r'.score) ∧
      (∀ r0, findRow db k = some r0 →
        (r'.score = r0.score ∨ r'.score ∈ scoresAt ms k) ∧
        r0.score ≤ r'.score ∧ ∀ s ∈ scoresAt ms k, s ≤ r'.score) := by
  induction ms with
  | nil =>
    intro db k r' hf
    have hdb : findRow db k = some r' := hf
    constructor
    · intro hn
      rw [hn] at hdb
      cases hdb
    · intro r0 h0
      rw [hdb] at h0
      injection h0 with h0
      subst h0
      exact ⟨Or.inl rfl, le_refl _, by intro s hs; simp [scoresAt] at hs⟩
  | cons m rest ih =>
    intro db k r' hf
    have hf' : findRow (saveMatchesToDB (upsert1 db m) rest) k = some r' := hf
    have IH := ih (upsert1 db m) k r' hf'
    by_cases hk : incomingKey m = k
    · subst hk
      have hup := findRow_upsert1_self db m
      rw [scoresAt_cons, if_pos (beq_self_eq_true _)]
      cases h0 : findRow db (incomingKey m) with
      | none =>
        rw [h0] at hup
        have IH2 := IH.2 (newRow m) hup
        constructor
        · intro _
          refine ⟨?_, ?_⟩
          · rcases IH2.1 with he | hm2
            · exact he ▸ List.mem_cons_self _ _
            · exact List.mem_cons_of_mem _ hm2
          · intro s hs
            rcases List.mem_cons.mp hs with rfl | hs
            · exact IH2.2.1
            · exact IH2.2.2 s hs
        · intro r1 h1
          simp at h1
      | some r0 =>
        rw [h0] at hup
        have IH2 := IH.2 _ hup
        have hsc : (applyConflict r0 (newRow m)).score
            = max r0.score (incomingScore m) := rfl
        constructor
        · intro hn
          simp at hn
        · intro r1 h1
          injection h1 with h1
          subst h1
          refine ⟨?_, ?_, ?_⟩
          · rcases IH2.1 with he | hm2
            · rw [hsc] at he
              rcases max_choice r0.score (incomingScore m) with hh | hh
              · exact Or.inl (by rw [he, hh])
              · exact Or.inr (by rw [he, hh]; exact List.mem_cons_self _ _)
            · exact Or.inr (List.mem_cons_of_mem _ hm2)
          · calc r0.score ≤ max r0.score (incomingScore m) := le_max_left _ _
              _ = (applyConflict r0 (newRow m)).score := rfl
              _ ≤ r'.score := IH2.2.1
          · intro s hs
            rcases List.mem_cons.mp hs with rfl | hs
            · calc incomingScore m ≤ max r0.score (incomingScore m) := le_max_right _ _
                _ = (applyConflict r0 (newRow m)).score := rfl
                _ ≤ r'.score := IH2.2.1
            · exact IH2.2.2 s hs
    · rw [scoresAt_cons, if_neg (by simp [beq_iff_eq, hk])]
      have hne := findRow_upsert1_ne db m k (fun h => hk h.symm)
      constructor
      · intro hn
        exact IH.1 (by rw [hne]; exact hn)
      · intro r0 h0
        exact IH.2 r0 (by rw [hne]; exact h0)

/-- Claim C1: under upsert, `status_at_gp` only escalates — an existing
`'Approved'` row stays `'Approved'` when the incoming status is
`'Published'`, an incoming `'Approved'` always leaves `'Approved'`
stored — and after any sequence of upserts from an empty store each
upserted key is stored in exactly one row. -/
theorem C1_status_monotone :
    (∀ (db : List Row) (m : Incoming) (r : Row),
      findRow db (incomingKey m) = some r →
      r.status_at_gp = "Approved".toList →
      incomingStatus m = "Published".toList →
      ∃ r', findRow (upsert1 db m) (incomingKey m) = some r' ∧
        r'.status_at_gp = "Approved".toList) ∧
    (∀ (db : List Row) (m : Incoming) (r : Row),
      findRow db (incomingKey m) = some r →
      incomingStatus m = "Approved".toList →
      ∃ r', findRow (upsert1 db m) (incomingKey m) = some r' ∧
        r'.status_at_gp = "Approved".toList) ∧
    (∀ (ms : List Incoming) (m : Incoming), m ∈ ms →
      countKey (saveMatchesToDB [] ms) (incomingKey m) = 1) := by
  refine ⟨?_, ?_, ?_⟩
  · intro db m r hfind happ hpub
    refine ⟨applyConflict r (newRow m), ?_, ?_⟩
    · rw [findRow_upsert1_self db m, hfind]
    · show (if (newRow m).status_at_gp = "Approved".toList then "Approved".toList
        else r.status_at_gp) = "Approved".toList
      have : (newRow m).status_at_gp = incomingStatus m := rfl
      rw [this, hpub, if_neg (by decide), happ]
  · intro db m r hfind happ
    refine ⟨applyConflict r (newRow m), ?_, ?_⟩
    · rw [findRow_upsert1_self db m, hfind]
    · show (if (newRow m).status_at_gp = "Approved".toList then "Approved".toList
        else r.status_at_gp) = "Approved".toList
      have : (newRow m).status_at_gp = incomingStatus m := rfl
      rw [this, happ, if_pos rfl]
  · intro ms m hm
    have hinv := saveMatches_invariant ms [] (by simp [keysUnique])
    exact countKey_eq_one hinv.1 (hinv.2 m hm)

/-- Claim C2: on conflict the stored score becomes
`max(existing, incoming)`, and over any sequence of upserts from an empty
store the stored score at a key is the maximum score ever observed for it. -/
theorem C2_score_is_max :
    (∀ (db : List Row) (m : Incoming) (r : Row),
      findRow db (incomingKey m) = some r →
      ∃ r', findRow (upsert1 db m) (incomingKey m) = some r' ∧
        r'.score = max r.score (incomingScore m)) ∧
    (∀ (ms : List Incoming) (k : RowKey) (r : Row),
      findRow (saveMatchesToDB [] ms) k = some r →
      r.score ∈ scoresAt ms k ∧ ∀ s ∈ scoresAt ms k, s ≤ r.score) := by
  refine ⟨?_, ?_⟩
  · intro db m r hfind
    refine ⟨applyConflict r (newRow m), ?_, rfl⟩
    rw [findRow_upsert1_self db m, hfind]
  · intro ms k r hfind
    exact (scoreFold ms [] k r hfind).1 rfl

/-! ### Concrete store fixtures for the persistence witnesses -/

/-- A sample incoming match carrying status `'Published'`. -/
def samplePub : Incoming :=
  { court_station := "Nakuru High Court".toList
    cause_no := "55 OF 2019".toList
    name_norm := "doe jane".toList
    name_of_deceased := "JANE DOE".toList
    excel_name := none
    match_type := none
    score := none
    duplicate := false
    status_at_gp := "Published".toList
    volume_no := []
    date_published := [] }

/-- The same logical key arriving with status `'Approved'`. -/
def sampleApp : Incoming :=
  { samplePub with status_at_gp := "Approved".toList }

/-- A stored row at that key already escalated to `'Approved'`. -/
def sampleRow : Row :=
  { key := incomingKey samplePub
    name_of_deceased := "JANE DOE".toList
    excel_name := none
    match_type := none
    score := 0
    duplicate := 0
    status_at_gp := "Approved".toList }

/-- Closed witness for C1 at the concrete fixtures. -/
theorem C1_status_monotone_witness :
    (∃ r', findRow (upsert1 [sampleRow] samplePub) (incomingKey samplePub) = some r' ∧
      r'.status_at_gp = "Approved".toList) ∧
    (∃ r', findRow (upsert1 [sampleRow] sampleApp) (incomingKey sampleApp) = some r' ∧
      r'.status_at_gp = "Approved".toList) ∧
    countKey (saveMatchesToDB [] [samplePub, sampleApp]) (incomingKey samplePub) = 1 :=
  ⟨C1_status_monotone.1 [sampleRow] samplePub sampleRow (by decide) (by decide) (by decide),
   C1_status_monotone.2.1 [sampleRow] sampleApp sampleRow (by decide) (by decide),
   C1_status_monotone.2.2 [samplePub, sampleApp] samplePub (by decide)⟩

/-- Closed witness for C2 at the concrete fixtures. -/
theorem C2_score_is_max_witness :
    (∃ r', findRow (upsert1 [sampleRow] samplePub) (incomingKey samplePub) = some r' ∧
      r'.score = max sampleRow.score (incomingScore samplePub)) ∧
    ((newRow samplePub).score ∈ scoresAt [samplePub] (incomingKey samplePub) ∧
      ∀ s ∈ scoresAt [samplePub] (incomingKey samplePub),
        s ≤ (newRow samplePub).score) :=
  ⟨C2_score_is_max.1 [sampleRow] samplePub sampleRow (by decide),
   C2_score_is_max.2 [samplePub] (incomingKey samplePub) (newRow samplePub) (by decide)⟩

/-! ## `bestExcelNameKey` (src/helpers/match.js lines 15-46)

A tabular row is the ordered list of its (label, value) entries, as
`Object.entries` yields them; values are modelled as strings (the empty
string standing for every falsy value).  The JavaScript object `map` is
an insertion-ordered association list where re-assignment keeps the
original position (integer-like key reordering does not arise for these
labels).  The mojibake replace `â€™ → '` of `normKey` is a no-op for the
final result (both forms are runs of non-alphanumeric characters, which
the next replace collapses to a space), and is modelled through that
collapse.
-/

/-- Lowercase letter or digit, the `[a-z0-9]` class of `normKey`. -/
def isAlnumLower (c : Char) : Bool := isAsciiLower c || isDigitCh c

/-- Model of `.replace(/[^a-z0-9]+/g, " ")`: each maximal run of
non-alphanumeric characters becomes one space. -/
def collapseNonAlnum : List Char → List Char
  | [] => []
  | [c] => [if !(isAlnumLower c) then ' ' else c]
  | c :: d :: rest =>
    if !(isAlnumLower c) && !(isAlnumLower d) then collapseNonAlnum (d :: rest)
    else (if !(isAlnumLower c) then ' ' else c) :: collapseNonAlnum (d :: rest)

/-- Model of `normKey`. -/
def normKey (k : List Char) : List Char :=
  jsTrim (collapseWs (collapseNonAlnum (jsLower k)))

/-- Model of `String.prototype.includes`. -/
def containsSub (needle : List Char) : List Char → Bool
  | [] => needle.isEmpty
  | c :: rest => needle.isPrefixOf (c :: rest) || containsSub needle rest

/-- JavaScript object assignment `map[k] = v`: replace in place if the
key exists, else append. -/
def putKey (m : List (List Char × List Char)) (k v : List Char) :
    List (List Char × List Char) :=
  if m.any (fun p => p.1 == k) then m.map (fun p => if p.1 == k then (k, v) else p)
  else m ++ [(k, v)]

/-- The loop `for (const [k, v] of Object.entries(row)) map[normKey(k)] = v`. -/
def buildMap (row : List (List Char × List Char)) : List (List Char × List Char) :=
  row.foldl (fun m kv => putKey m (normKey kv.1) kv.2) []

/-- `map[key]` as an optional value. -/
def getVal (m : List (List Char × List Char)) (k : List Char) : Option (List Char) :=
  (m.find? (fun p => p.1 == k)).map Prod.snd

/-- Truthiness of `map[key]` (absent or empty is falsy). -/
def truthy (o : Option (List Char)) : Bool :=
  match o with
  | some v => !v.isEmpty
  | none => false

/-- The `candidates` priority list of src/helpers/match.js — it does not
contain `"name"`. -/
def candidates : List (List Char) :=
  ["name of the deceased".toList, "name of deceased".toList,
   "name deceased".toList, "deceased name".toList,
   "deceased s name".toList, "name deceased s".toList,
   "name (deceased)".toList, "full name".toList,
   "fullname".toList, "deceased".toList]

/-- The `candidates` list of the src/unnamed/part_002 variant, which
additionally ends with `"name"`. -/
def candidatesU : List (List Char) :=
  candidates ++ ["name".toList]

/-- The loop `for (const key of candidates) if (map[key]) return ...`. -/
def candLoop (m : List (List Char × List Char)) : List (List Char) → Option (List Char)
  | [] => none
  | key :: rest =>
    match getVal m key with
    | some v => if v.isEmpty then candLoop m rest else some (jsTrim v)
    | none => candLoop m rest

/-- The fallback loop
`for (const [k, v] of Object.entries(map)) if (k.includes("deceased") && v) ...`. -/
def entLoop : List (List Char × List Char) → Option (List Char)
  | [] => none
  | (k, v) :: rest =>
    if containsSub "deceased".toList k && !(v.isEmpty) then some (jsTrim v)
    else entLoop rest

/-- Model of `bestExcelNameKey` (src/helpers/match.js). -/
def bestExcelNameKey (row : List (List Char × List Char)) : List Char :=
  match candLoop (buildMap row) candidates with
  | some v => v
  | none =>
    match entLoop (buildMap row) with
    | some v => v
    | none => []

/-- The part_002 variant, differing only by the `"name"` synonym. -/
def bestExcelNameKeyU (row : List (List Char × List Char)) : List Char :=
  match candLoop (buildMap row) candidatesU with
  | some v => v
  | none =>
    match entLoop (buildMap row) with
    | some v => v
    | none => []

/-- Modelled from the spec (§4.3): resolve by first synonym whose value
is non-empty, in priority order, then first entry whose normalized label
contains `"deceased"` with a non-empty value, else empty — phrased with
`find?` rather than the source's loops. -/
def resolveNameSpec (row : List (List Char × List Char)) : List Char :=
  match candidates.find? (fun key => truthy (getVal (buildMap row) key)) with
  | some key => jsTrim ((getVal (buildMap row) key).getD [])
  | none =>
    match (buildMap row).find?
        (fun p => containsSub "deceased".toList p.1 && !(p.2.isEmpty)) with
    | some p => jsTrim p.2
    | none => []

lemma candLoop_eq_find? (m : List (List Char × List Char)) :
    ∀ cs : List (List Char),
      candLoop m cs
        = (cs.find? (fun key => truthy (getVal m key))).map
            (fun key => jsTrim ((getVal m key).getD []))
  | [] => rfl
  | key :: rest => by
    cases hv : getVal m key with
    | none =>
      rw [candLoop, hv]
      rw [@List.find?_cons_of_neg _ (fun key => truthy (getVal m key)) key rest
        (by show ¬truthy (getVal m key) = true; rw [hv]; simp [truthy])]
      exact candLoop_eq_find? m rest
    | some v =>
      by_cases he : v.isEmpty = true
      · rw [candLoop, hv]
        dsimp only
        rw [if_pos he]
        rw [@List.find?_cons_of_neg _ (fun key => truthy (getVal m key)) key rest
          (by show ¬truthy (getVal m key) = true; rw [hv]; simp [truthy, he])]
        exact candLoop_eq_find? m rest
      · rw [candLoop, hv]
        dsimp only
        rw [if_neg he]
        rw [@List.find?_cons_of_pos _ (fun key => truthy (getVal m key)) key rest
          (by show truthy (getVal m key) = true; rw [hv]; simp [truthy, he])]
        rw [Option.map_some', hv]
        rfl

lemma entLoop_eq_find? :
    ∀ m : List (List Char × List Char),
      entLoop m
        = (m.find? (fun p => containsSub "deceased".toList p.1 && !(p.2.isEmpty))).map
            (fun p => jsTrim p.2)
  | [] => rfl
  | (k, v) :: rest => by
    by_cases hp : (containsSub "deceased".toList k && !(v.isEmpty)) = true
    · rw [entLoop, if_pos hp]
      rw [@List.find?_cons_of_pos _
        (fun p => containsSub "deceased".toList p.1 && !(p.2.isEmpty)) (k, v) rest hp]
      rfl
    · rw [entLoop, if_neg hp]
      rw [@List.find?_cons_of_neg _
        (fun p => containsSub "deceased".toList p.1 && !(p.2.isEmpty)) (k, v) rest hp]
      exact entLoop_eq_find? rest

/-- Claim C9, counterexample: the synonym list of
src/helpers/match.js's `bestExcelNameKey` does not include `"name"` —
a row whose only column is labelled `Name` resolves to the empty string
there, while the part_002 variant (whose list ends with `"name"`)
resolves it to the value. -/
theorem C9_counterexample :
    bestExcelNameKey [("Name".toList, "JOHN KAMAU".toList)] = [] ∧
    bestExcelNameKeyU [("Name".toList, "JOHN KAMAU".toList)] = "JOHN KAMAU".toList :=
  ⟨by decide, by decide⟩

/-- Claim C9, amended: `bestExcelNameKey` normalizes every label,
returns the first synonym (in the fixed priority order, which in
src/helpers/match.js ends at `"deceased"` and has no `"name"` entry)
whose value is non-empty, otherwise the first non-empty value whose
normalized label contains `"deceased"`, otherwise the empty string —
equivalently, the `find?`-phrased resolver from the spec's words. -/
theorem C9_amended :
    (∀ row : List (List Char × List Char),
      bestExcelNameKey row = resolveNameSpec row) ∧
    bestExcelNameKey [("Deceased's Name".toList, "ALI HASSAN".toList)]
      = "ALI HASSAN".toList ∧
    bestExcelNameKey [("Deceased particulars".toList, "MARY ATIENO".toList)]
      = "MARY ATIENO".toList ∧
    bestExcelNameKey [("Court".toList, "Nakuru".toList)] = [] := by
  refine ⟨?_, by decide, by decide, by decide⟩
  intro row
  unfold bestExcelNameKey resolveNameSpec
  rw [candLoop_eq_find? (buildMap row) candidates, entLoop_eq_find? (buildMap row)]
  cases candidates.find? (fun key => truthy (getVal (buildMap row) key)) with
  | some key => rfl
  | none =>
    cases (buildMap row).find?
        (fun p => containsSub "deceased".toList p.1 && !(p.2.isEmpty)) with
    | some p => rfl
    | none => rfl

/-! ## The `/api/match` route (src/unnamed/part_003) and `processMatches`
(src/unnamed/part_004)

Only the pure request-processing core is modelled: PDF/spreadsheet
decoding are the spec's black boxes, so the route model takes the
already-extracted gazette records and normalized spreadsheet rows.  The
store is threaded explicitly; an early `res.status(400)` return is an
`Except.error`, which skips the `saveMatchesToDB` call below it exactly
as the source's control flow does.
-/

/-- One extracted gazette record (the object `extractGazetteRecords`
pushes). -/
structure GazetteRecord where
  court_station : List Char
  cause_no : List Char
  name_of_deceased : List Char
  status_at_gp : List Char
  volume_no : List Char
  date_published : List Char
deriving DecidableEq

/-- A normalized spreadsheet row as `normalizeExcelRows` produces it
(`_name_raw`, `_name_norm`, `_name_tokens`; original columns dropped —
the route only reads these three). -/
structure ExcelRow where
  name_raw : List Char
  name_norm : List Char
  name_tokens : List Char
deriving DecidableEq

/-- The object pushed onto `matchedRows`. -/
structure MatchedRow where
  court_station : List Char
  cause_no : List Char
  name_of_deceased : List Char
  status_at_gp : List Char
  volume_no : List Char
  date_published : List Char
  excel_name : List Char
deriving DecidableEq

/-- The fuzzy composite score `(s1 * 0.7) + (s2 * 0.3)` of the route. -/
def fuzzyScore (gNorm gTokens : List Char) (ex : ExcelRow) : ℚ :=
  jaroWinkler gNorm ex.name_norm * (7 / 10)
    + jaccard (splitP (fun c => c == ' ') gTokens)
        (splitP (fun c => c == ' ') ex.name_tokens) * (3 / 10)

/-- `.map(score).filter(score >= threshold).sort(desc)` of the fuzzy
branch, before the slice. -/
def fuzzyScored (gNorm gTokens : List Char) (threshold : ℚ)
    (excelRows : List ExcelRow) : List (ExcelRow × ℚ) :=
  jsSort (fun a b => decide (b.2 ≤ a.2))
    ((excelRows.map (fun ex => (ex, fuzzyScore gNorm gTokens ex))).filter
      (fun p => decide (threshold ≤ p.2)))

/-- `.slice(0, 5)`. -/
def fuzzyRetained (gNorm gTokens : List Char) (threshold : ℚ)
    (excelRows : List ExcelRow) : List (ExcelRow × ℚ) :=
  (fuzzyScored gNorm gTokens threshold excelRows).take 5

/-- `.map(({ ex }) => ex)`: the candidate rows the fuzzy branch yields. -/
def fuzzyCandidates (gNorm gTokens : List Char) (threshold : ℚ)
    (excelRows : List ExcelRow) : List ExcelRow :=
  (fuzzyRetained gNorm gTokens threshold excelRows).map Prod.fst

/-- Lookup in the `excelByNorm` index (rows with falsy `_name_norm` are
never inserted; a missing key yields `[]`). -/
def lookupByNorm (rows : List ExcelRow) (key : List Char) : List ExcelRow :=
  if key.isEmpty then [] else rows.filter (fun r => r.name_norm == key)

/-- Lookup in the `excelByTokens` index. -/
def lookupByTokens (rows : List ExcelRow) (key : List Char) : List ExcelRow :=
  if key.isEmpty then [] else rows.filter (fun r => r.name_tokens == key)

/-- The row pushed for a candidate `ex` of gazette record `g`. -/
def matchedRow (g : GazetteRecord) (ex : ExcelRow) : MatchedRow :=
  { court_station := g.court_station
    cause_no := g.cause_no
    name_of_deceased := g.name_of_deceased
    status_at_gp := if g.status_at_gp = [] then "Published".toList else g.status_at_gp
    volume_no := g.volume_no
    date_published := g.date_published
    excel_name := ex.name_raw }

/-- The per-gazette loop of `POST /api/match`, with the mode dispatched
inside the loop exactly as in the source: an unknown mode is only
detected when at least one gazette record is processed. -/
def matchLoop (mode : List Char) (threshold : ℚ) (excelRows : List ExcelRow) :
    List GazetteRecord → Except (List Char) (List MatchedRow)
  | [] => Except.ok []
  | g :: rest =>
    let gNorm := normalizeName g.name_of_deceased
    let gTokens := tokenizeName g.name_of_deceased
    let cands : Except (List Char) (List ExcelRow) :=
      if mode = "exact".toList then Except.ok (lookupByNorm excelRows gNorm)
      else if mode = "tokens".toList then Except.ok (lookupByTokens excelRows gTokens)
      else if mode = "fuzzy".toList then
        Except.ok (fuzzyCandidates gNorm gTokens threshold excelRows)
      else Except.error ("Unknown mode: ".toList ++ mode)
    match cands with
    | Except.error e => Except.error e
    | Except.ok cs =>
      match matchLoop mode threshold excelRows rest with
      | Except.error e => Except.error e
      | Except.ok ms => Except.ok (cs.map (matchedRow g) ++ ms)

/-- How `saveMatchesToDB` reads a matched row (no `name_norm`, no
`score`, no `match_type` on these objects). -/
def matchedToIncoming (m : MatchedRow) : Incoming :=
  { court_station := m.court_station
    cause_no := m.cause_no
    name_norm := []
    name_of_deceased := m.name_of_deceased
    excel_name := some m.excel_name
    match_type := none
    score := none
    duplicate := false
    status_at_gp := m.status_at_gp
    volume_no := m.volume_no
    date_published := m.date_published }

/-- `Math.max(0, Math.min(0.999, threshold))`. -/
def clampThreshold (t : ℚ) : ℚ := max 0 (min (999 / 1000) t)

/-- The `/api/match` handler after file decoding: mode defaulting and
lowercasing, the matching loop, then persistence — reached only on the
success path. -/
def matchRoute (db : List Row) (modeQ : Option (List Char)) (threshold : ℚ)
    (gazetteRecords : List GazetteRecord) (excelRows : List ExcelRow) :
    List Row × Except (List Char) (List MatchedRow) :=
  let mode := jsLower (modeQ.getD "tokens".toList)
  match matchLoop mode (clampThreshold threshold) excelRows gazetteRecords with
  | Except.error e => (db, Except.error e)
  | Except.ok matched =>
    (saveMatchesToDB db (matched.map matchedToIncoming), Except.ok matched)

/-- A candidate handed to part_004's `processMatches`. -/
structure Cand where
  g : Option GazetteRecord
  ex : Option ExcelRow
  score : ℚ

/-- The `publicRow` built for a candidate. -/
def pmRow (g : GazetteRecord) (ex : ExcelRow) (score acceptThreshold : ℚ) :
    MatchedRow :=
  { court_station := g.court_station
    cause_no := g.cause_no
    name_of_deceased := g.name_of_deceased
    status_at_gp :=
      if acceptThreshold ≤ score then "Approved".toList else "Published".toList
    volume_no := g.volume_no
    date_published := g.date_published
    excel_name := ex.name_raw }

/-- The accept/review partition loop of `processMatches` (candidates
with a missing side are skipped; sub-review candidates are dropped). -/
def pmLoop (aT rT : ℚ) : List Cand → List MatchedRow × List MatchedRow
  | [] => ([], [])
  | c :: rest =>
    let r := pmLoop aT rT rest
    match c.g, c.ex with
    | some g, some ex =>
      if aT ≤ c.score then (pmRow g ex c.score aT :: r.1, r.2)
      else if rT ≤ c.score then (r.1, pmRow g ex c.score aT :: r.2)
      else r
    | _, _ => r

/-- part_004's `processMatches`: mode validation up front, then the
partition, then persistence of the accepted rows only. -/
def processMatches (db : List Row) (mode : List Char) (cands : List Cand)
    (aT rT : ℚ) : List Row × Except (List Char) (List MatchedRow × List MatchedRow) :=
  if mode = [] then (db, Except.error "Mode is required".toList)
  else if mode ∉ ["exact".toList, "fuzzy".toList, "tokens".toList] then
    (db, Except.error ("Unknown mode: ".toList ++ mode))
  else
    let p := pmLoop aT rT cands
    (saveMatchesToDB db (p.1.map matchedToIncoming), Except.ok p)

/-- Claim C4: in fuzzy mode every retained candidate pair scores
`0.7 * JaroWinkler(normalized names) + 0.3 * Jaccard(token sets)`, only
pairs scoring at least the caller's threshold are kept, the kept pairs
are in descending score order, and at most 5 candidates survive per
gazette record. -/
theorem C4_fuzzy_scoring :
    ∀ (gNorm gTokens : List Char) (threshold : ℚ) (excelRows : List ExcelRow),
      (∀ p ∈ fuzzyRetained gNorm gTokens threshold excelRows,
        p.2 = (7 / 10) * jaroWinkler gNorm p.1.name_norm
            + (3 / 10) * jaccard (splitP (fun c => c == ' ') gTokens)
                (splitP (fun c => c == ' ') p.1.name_tokens) ∧
        threshold ≤ p.2 ∧ p.1 ∈ excelRows) ∧
      (fuzzyRetained gNorm gTokens threshold excelRows).Pairwise
        (fun a b => b.2 ≤ a.2) ∧
      (fuzzyCandidates gNorm gTokens threshold excelRows).length ≤ 5 := by
  intro gNorm gTokens th rows
  refine ⟨?_, ?_, ?_⟩
  · intro p hp
    have h1 : p ∈ fuzzyScored gNorm gTokens th rows :=
      List.Sublist.mem hp (List.take_sublist 5 _)
    unfold fuzzyScored at h1
    rw [mem_jsSort, List.mem_filter] at h1
    obtain ⟨hmap, hth⟩ := h1
    rw [List.mem_map] at hmap
    obtain ⟨ex, hex, rfl⟩ := hmap
    refine ⟨?_, by simpa using hth, hex⟩
    show fuzzyScore gNorm gTokens ex = _
    unfold fuzzyScore
    ring
  · unfold fuzzyRetained
    have hs := @jsSort_pairwise (ExcelRow × ℚ) (fun a b => decide (b.2 ≤ a.2))
      (fun a b c hab hbc => by
        simp only [decide_eq_true_eq] at hab hbc ⊢
        exact le_trans hbc hab)
      (fun a b => by
        rcases le_total b.2 a.2 with h | h
        · exact Or.inl (by simpa using h)
        · exact Or.inr (by simpa using h))
      ((rows.map (fun ex => (ex, fuzzyScore gNorm gTokens ex))).filter
        (fun p => decide (th ≤ p.2)))
    have hs2 : (fuzzyScored gNorm gTokens th rows).Pairwise (fun a b => b.2 ≤ a.2) := by
      unfold fuzzyScored
      exact hs.imp (fun hab => by simpa using hab)
    exact List.Pairwise.sublist (List.take_sublist 5 _) hs2
  · unfold fuzzyCandidates fuzzyRetained
    rw [List.length_map]
    exact List.length_take_le 5 _

/-- Closed witness for C4 at a concrete (empty) registry. -/
theorem C4_fuzzy_scoring_witness :
    (∀ p ∈ fuzzyRetained [] [] 0 [], p.2 = (7 / 10) * jaroWinkler [] p.1.name_norm
        + (3 / 10) * jaccard (splitP (fun c => c == ' ') [])
            (splitP (fun c => c == ' ') p.1.name_tokens) ∧
      (0 : ℚ) ≤ p.2 ∧ p.1 ∈ ([] : List ExcelRow)) ∧
    (fuzzyRetained [] [] 0 []).Pairwise (fun a b => b.2 ≤ a.2) ∧
    (fuzzyCandidates [] [] 0 []).length ≤ 5 :=
  C4_fuzzy_scoring [] [] 0 []

/-- A concrete gazette record for the route witnesses. -/
def sampleGaz : GazetteRecord :=
  { court_station := "Nairobi High Court".toList
    cause_no := "123 OF 2020".toList
    name_of_deceased := "JOHN KAMAU".toList
    status_at_gp := "Published".toList
    volume_no := []
    date_published := [] }

/-- Claim C8, counterexample: with an unknown mode but zero extracted
gazette records, `/api/match` raises no error at all — the mode check
lives inside the per-record loop — and responds with success, persisting
nothing. -/
theorem C8_counterexample :
    (matchRoute [] (some "bogus".toList) 0 [] []).2 = Except.ok [] ∧
    (matchRoute [] (some "bogus".toList) 0 [] []).1 = [] :=
  ⟨rfl, rfl⟩

/-- Claim C8, amended: `processMatches` (part_004) rejects every
non-empty unknown mode up front, before producing candidates or touching
the store; the `/api/match` handler (part_003) returns the unknown-mode
error with nothing persisted provided at least one gazette record was
extracted, but with zero gazette records it succeeds silently. -/
theorem C8_amended :
    (∀ (db : List Row) (mode : List Char) (cands : List Cand) (aT rT : ℚ),
      mode ≠ [] →
      mode ∉ ["exact".toList, "fuzzy".toList, "tokens".toList] →
      processMatches db mode cands aT rT
        = (db, Except.error ("Unknown mode: ".toList ++ mode))) ∧
    (∀ (db : List Row) (modeQ : Option (List Char)) (t : ℚ)
        (gs : List GazetteRecord) (rows : List ExcelRow),
      jsLower (modeQ.getD "tokens".toList)
          ∉ ["exact".toList, "tokens".toList, "fuzzy".toList] →
      gs ≠ [] →
      matchRoute db modeQ t gs rows
        = (db, Except.error
            ("Unknown mode: ".toList ++ jsLower (modeQ.getD "tokens".toList)))) := by
  constructor
  · intro db mode cands aT rT hne hnotin
    unfold processMatches
    rw [if_neg hne, if_pos hnotin]
  · intro db modeQ t gs rows hnotin hne
    obtain ⟨g, rest, rfl⟩ : ∃ g rest, gs = g :: rest := by
      cases gs with
      | nil => exact absurd rfl hne
      | cons g rest => exact ⟨g, rest, rfl⟩
    simp only [List.mem_cons, List.not_mem_nil, or_false, not_or] at hnotin
    unfold matchRoute matchLoop
    dsimp only
    rw [if_neg hnotin.1, if_neg hnotin.2.1, if_neg hnotin.2.2]

/-- Closed witness for C8's amended statement at concrete inputs. -/
theorem C8_amended_witness :
    processMatches [] "bogus".toList [] 0 0
      = ([], Except.error ("Unknown mode: ".toList ++ "bogus".toList)) ∧
    matchRoute [] (some "bogus".toList) 0 [sampleGaz] []
      = ([], Except.error
          ("Unknown mode: ".toList ++ jsLower ((some "bogus".toList).getD "tokens".toList))) :=
  ⟨C8_amended.1 [] "bogus".toList [] 0 0 (by decide) (by decide),
   C8_amended.2 [] (some "bogus".toList) 0 [sampleGaz] [] (by decide) (by decide)⟩

/-! ## A regex engine for `parse.js`

`src/helpers/parse.js` is driven by a handful of regular expressions.
They are embedded through a small backtracking engine over positions of
a fixed subject string: a pattern yields the list of (end position,
captures) alternatives in preference order — greedy quantifiers longest
first, alternation left first — which is the exploration order of the
JavaScript engine, and `searchFrom` takes the leftmost position's first
alternative, i.e. the JavaScript match.
-/

/-- A pattern: subject string, start position, and the resulting
alternatives as (end position, captured groups so far) in preference
order. -/
def Pat : Type := List Char → ℕ → List (ℕ × List (List Char))

/-- The substring of `s` from position `i` (inclusive) to `j` (exclusive). -/
def sliceStr (s : List Char) (i j : ℕ) : List Char := (s.take j).drop i

/-- Single character from a class. -/
def pPred (f : Char → Bool) : Pat := fun s i =>
  match s[i]? with
  | some c => if f c then [(i + 1, [])] else []
  | none => []

/-- Sequencing (backtracking order: outer alternative first). -/
def pSeq (a b : Pat) : Pat := fun s i =>
  (a s i).flatMap (fun r => (b s r.1).map (fun r2 => (r2.1, r.2 ++ r2.2)))

/-- Alternation, left preferred. -/
def pAlt (a b : Pat) : Pat := fun s i => a s i ++ b s i

/-- Greedy `?`. -/
def pOpt (a : Pat) : Pat := fun s i => a s i ++ [(i, [])]

/-- Greedy `*` via fuel; a step that consumes nothing ends the loop, so
fuel `|s| + 1` is always enough. -/
def pStarFuel (a : Pat) : ℕ → Pat
  | 0 => fun _ i => [(i, [])]
  | n + 1 => fun s i =>
    (((a s i).filter (fun r => i < r.1)).flatMap
      (fun r => (pStarFuel a n s r.1).map (fun r2 => (r2.1, r.2 ++ r2.2))))
    ++ [(i, [])]

/-- Greedy `*`. -/
def pStar (a : Pat) : Pat := fun s i => pStarFuel a (s.length + 1) s i

/-- Greedy `+`. -/
def pPlus (a : Pat) : Pat := pSeq a (pStar a)

/-- A capture group (the sources never nest capture groups, so appending
the slice after the inner captures preserves group numbering). -/
def pGroup (a : Pat) : Pat := fun s i =>
  (a s i).map (fun r => (r.1, r.2 ++ [sliceStr s i r.1]))

/-- The word-boundary assertion `\b`. -/
def pBound : Pat := fun s i =>
  let left := if i = 0 then false else
    match s[i - 1]? with
    | some c => isWordChar c
    | none => false
  let right :=
    match s[i]? with
    | some c => isWordChar c
    | none => false
  if left != right then [(i, [])] else []

/-- The end anchor `$` (no multiline flag in the sources). -/
def pEnd : Pat := fun s i => if i = s.length then [(i, [])] else []

/-- Case-sensitive literal. -/
def pLit (lit : List Char) : Pat := fun s i =>
  if lit.isPrefixOf (s.drop i) then [(i + lit.length, [])] else []

/-- Case-insensitive comparison of a lowercase literal against a prefix. -/
def isPrefixCI : List Char → List Char → Bool
  | [], _ => true
  | _ :: _, [] => false
  | a :: as, b :: bs => (Char.toLower b == a) && isPrefixCI as bs

/-- Case-insensitive literal (written lowercase), for the `/i` patterns. -/
def pLitCI (lit : List Char) : Pat := fun s i =>
  if isPrefixCI lit (s.drop i) then [(i + lit.length, [])] else []

/-- Leftmost-first search, fuelled (structurally recursive so that proofs
can evaluate it); `fuel` bounds the number of further start positions. -/
def searchFromFuel (p : Pat) (s : List Char) :
    ℕ → ℕ → Option (ℕ × ℕ × List (List Char))
  | 0, i =>
    match (p s i).head? with
    | some r => some (i, r.1, r.2)
    | none => none
  | fuel + 1, i =>
    match (p s i).head? with
    | some r => some (i, r.1, r.2)
    | none => if i < s.length then searchFromFuel p s fuel (i + 1) else none

/-- Leftmost-first search from position `i`: the JavaScript match.  The
fuel `s.length - i` reaches every start position up to `s.length`. -/
def searchFrom (p : Pat) (s : List Char) (i : ℕ) :
    Option (ℕ × ℕ × List (List Char)) :=
  searchFromFuel p s (s.length - i) i

/-- `RegExp.prototype.test`. -/
def pTest (p : Pat) (s : List Char) : Bool := (searchFrom p s 0).isSome

/-- Non-global `String.prototype.replace`. -/
def replaceOnce (p : Pat) (repl : List Char) (s : List Char) : List Char :=
  match searchFrom p s 0 with
  | some (st, en, _) => s.take st ++ repl ++ s.drop en
  | none => s

/-- Global `String.prototype.replace`: scan the original string left to
right (an empty match advances one character, as `lastIndex` does). -/
def gReplaceFuel (p : Pat) (repl : List Char) (s : List Char) :
    ℕ → ℕ → List Char
  | 0, i => s.drop i
  | fuel + 1, i =>
    match searchFrom p s i with
    | none => s.drop i
    | some (st, en, _) =>
      if st < en then sliceStr s i st ++ repl ++ gReplaceFuel p repl s fuel en
      else sliceStr s i st ++ repl ++ (s.drop st).take 1
        ++ gReplaceFuel p repl s fuel (st + 1)

/-- Global replace entry point. -/
def gReplace (p : Pat) (repl s : List Char) : List Char :=
  gReplaceFuel p repl s (s.length + 1) 0

/-- `String.prototype.split(pat)[0]`: the prefix before the first match. -/
def splitFirst (p : Pat) (s : List Char) : List Char :=
  match searchFrom p s 0 with
  | some (st, _, _) => s.take st
  | none => s

/-! ## `extractGazetteRecords` (src/helpers/parse.js) -/

/-- The dash class `[-–—]` of the volume pattern. -/
def isDashCh (c : Char) : Bool := c == '-' || c == '–' || c == '—'

/-- The `[IVXLCDM0-9]` class under `/i`. -/
def isRomanDigit (c : Char) : Bool :=
  (Char.toLower c == 'i') || (Char.toLower c == 'v') || (Char.toLower c == 'x') ||
  (Char.toLower c == 'l') || (Char.toLower c == 'c') || (Char.toLower c == 'd') ||
  (Char.toLower c == 'm') || isDigitCh c

/-- `.` (any character but a line terminator). -/
def pDot : Pat := pPred (fun c => !(c == '\n' || c == '\r'))

/-- `\s`. -/
def pWs : Pat := pPred isJsWs

/-- `\d`. -/
def pDigit : Pat := pPred isDigitCh

/-- `\d{4}`. -/
def pD4 : Pat := pSeq pDigit (pSeq pDigit (pSeq pDigit pDigit))

/-- The station pattern
`/IN THE\s+(HIGH COURT|MAGISTRATES? COURT|CHIEF MAGISTRATE[’']?S COURT)\s+(?:OF KENYA\s+)?AT\s+([A-Z][A-Za-z\s-]+)/i`
(letter classes are case-insensitive under the `/i` flag). -/
def stationPat : Pat :=
  pSeq (pLitCI "in the".toList)
    (pSeq (pPlus pWs)
      (pSeq (pGroup
          (pAlt (pLitCI "high court".toList)
            (pAlt (pSeq (pLitCI "magistrate".toList)
                (pSeq (pOpt (pLitCI "s".toList)) (pLitCI " court".toList)))
              (pSeq (pLitCI "chief magistrate".toList)
                (pSeq (pOpt (pPred (fun c => c == '’' || c == '\'')))
                  (pLitCI "s court".toList))))))
        (pSeq (pPlus pWs)
          (pSeq (pOpt (pSeq (pLitCI "of kenya".toList) (pPlus pWs)))
            (pSeq (pLitCI "at".toList)
              (pSeq (pPlus pWs)
                (pGroup (pSeq (pPred isAsciiAlpha)
                  (pPlus (pPred (fun c => isAsciiAlpha c || isJsWs c || c == '-')))))))))))

/-- The cause pattern
`/\bCAUSE\s+NO\.?\s*([A-Za-z-]*\s*\d+(?:\s*OF\s*)?\s*\d{4}|[A-Za-z0-9]+\/\d{4}|[A-Za-z0-9-]+)/i`. -/
def causePat : Pat :=
  pSeq pBound
    (pSeq (pLitCI "cause".toList)
      (pSeq (pPlus pWs)
        (pSeq (pLitCI "no".toList)
          (pSeq (pOpt (pLit ".".toList))
            (pSeq (pStar pWs)
              (pGroup
                (pAlt
                  (pSeq (pStar (pPred (fun c => isAsciiAlpha c || c == '-')))
                    (pSeq (pStar pWs)
                      (pSeq (pPlus pDigit)
                        (pSeq (pOpt (pSeq (pStar pWs)
                            (pSeq (pLitCI "of".toList) (pStar pWs))))
                          (pSeq (pStar pWs) pD4)))))
                  (pAlt
                    (pSeq (pPlus (pPred (fun c => isAsciiAlpha c || isDigitCh c)))
                      (pSeq (pLit "/".toList) pD4))
                    (pPlus (pPred (fun c =>
                      isAsciiAlpha c || isDigitCh c || c == '-')))))))))))

/-- The estate marker test `/(ESTATE\s+OF)/i`. -/
def estatePat : Pat :=
  pSeq (pLitCI "estate".toList) (pSeq (pPlus pWs) (pLitCI "of".toList))

/-- The volume pattern `/Vol\.?\s*[IVXLCDM0-9]+\s*[-–—]?\s*No\.?\s*\d+/i`. -/
def volPat : Pat :=
  pSeq (pLitCI "vol".toList)
    (pSeq (pOpt (pLit ".".toList))
      (pSeq (pStar pWs)
        (pSeq (pPlus (pPred isRomanDigit))
          (pSeq (pStar pWs)
            (pSeq (pOpt (pPred isDashCh))
              (pSeq (pStar pWs)
                (pSeq (pLitCI "no".toList)
                  (pSeq (pOpt (pLit ".".toList))
                    (pSeq (pStar pWs) (pPlus pDigit))))))))))

/-- The date pattern
`/(\d{1,2}(?:st|nd|rd|th)?\s+[A-Z][a-z]+\s*,?\s+\d{4})/i`. -/
def datePat : Pat :=
  pSeq (pSeq pDigit (pOpt pDigit))
    (pSeq (pOpt (pAlt (pLitCI "st".toList)
        (pAlt (pLitCI "nd".toList) (pAlt (pLitCI "rd".toList) (pLitCI "th".toList)))))
      (pSeq (pPlus pWs)
        (pSeq (pPred isAsciiAlpha)
          (pSeq (pPlus (pPred isAsciiAlpha))
            (pSeq (pStar pWs)
              (pSeq (pOpt (pLit ",".toList))
                (pSeq (pPlus pWs) pD4)))))))

/-- The pattern `/who\s+died/i`. -/
def whoDiedPat : Pat :=
  pSeq (pLitCI "who".toList) (pSeq (pPlus pWs) (pLitCI "died".toList))

/-- The deceased scrub `/\(?\s*DECEASED\s*\)?/gi`. -/
def deceasedPat : Pat :=
  pSeq (pOpt (pLit "(".toList))
    (pSeq (pStar pWs)
      (pSeq (pLitCI "deceased".toList)
        (pSeq (pStar pWs) (pOpt (pLit ")".toList)))))

/-- The article scrub `/\b(THE|LATE)\b/gi`. -/
def theLatePat : Pat :=
  pSeq pBound
    (pSeq (pGroup (pAlt (pLitCI "the".toList) (pLitCI "late".toList))) pBound)

/-- The `.*ESTATE\s+OF\s*` strip (leading greedy `.*` reaches the last
occurrence). -/
def estateStripPat : Pat :=
  pSeq (pStar pDot)
    (pSeq (pLitCI "estate".toList)
      (pSeq (pPlus pWs) (pSeq (pLitCI "of".toList) (pStar pWs))))

/-- The trailing residence qualifier `/\bof\s+[A-Z][A-Za-z\s]+$/i`. -/
def ofPlacePat : Pat :=
  pSeq pBound
    (pSeq (pLitCI "of".toList)
      (pSeq (pPlus pWs)
        (pSeq (pPred isAsciiAlpha)
          (pSeq (pPlus (pPred (fun c => isAsciiAlpha c || isJsWs c))) pEnd))))

example :
    (searchFrom stationPat "IN THE HIGH COURT OF KENYA AT NAIROBI".toList 0).map
        (fun r => r.2.2)
      = some ["HIGH COURT".toList, "NAIROBI".toList] := by decide

example :
    (searchFrom causePat "CAUSE NO. 123 OF 2020".toList 0).map (fun r => r.2.2)
      = some ["123 OF 2020".toList] := by decide

example :
    (searchFrom datePat "CAUSE NO. 123 OF 2020".toList 0).map
        (fun r => sliceStr "CAUSE NO. 123 OF 2020".toList r.1 r.2.1)
      = some "23 OF 2020".toList := by decide

example :
    replaceOnce estateStripPat []
      "ESTATE OF JOHN KAMAU DECEASED".toList = "JOHN KAMAU DECEASED".toList := by decide

example :
    gReplace deceasedPat [] "JOHN KAMAU DECEASED".toList = "JOHN KAMAU".toList := by
  decide

/-- Model of `String.prototype.toUpperCase`, character-wise (exact on ASCII). -/
def jsUpper (s : List Char) : List Char := s.map Char.toUpper

/-- The `split(/\r?\n/)` line splitter (a `\r` is dropped only directly
before a `\n`). -/
def splitLines : List Char → List (List Char)
  | [] => [[]]
  | '\r' :: '\n' :: rest => [] :: splitLines rest
  | '\n' :: rest => [] :: splitLines rest
  | c :: rest =>
    match splitLines rest with
    | [] => [[c]]
    | h :: t => (c :: h) :: t

/-- The location scrub `st[2].replace(/[^A-Za-z\s-]/g, " ")`. -/
def stationLocClean (s : List Char) : List Char :=
  s.map (fun c => if isAsciiAlpha c || isJsWs c || c == '-' then c else ' ')

/-- The `\b\w` uppercase of `toTitle`, walking with the previous character. -/
def toTitleCore : Option Char → List Char → List Char
  | _, [] => []
  | prev, c :: rest =>
    let boundary :=
      isWordChar c && !(match prev with
        | some p => isWordChar p
        | none => false)
    (if boundary then Char.toUpper c else c) :: toTitleCore (some c) rest

/-- Model of parse.js's `toTitle`. -/
def toTitle (s : List Char) : List Char :=
  jsTrim (toTitleCore none (collapseWs (jsLower s)))

/-- The volume-marker scan of `extractHeaderInfo`, returning the line
index and the raw match. -/
def findVol : List (List Char) → ℕ → Option (ℕ × List Char)
  | [], _ => none
  | l :: rest, i =>
    match searchFrom volPat l 0 with
    | some (st, en, _) => some (i, sliceStr l st en)
    | none => findVol rest (i + 1)

/-- A date match on one line, post-processed as
`dm[1].replace(",", "").trim()`. -/
def dateOfLine (l : List Char) : Option (List Char) :=
  match searchFrom datePat l 0 with
  | some (st, en, _) =>
    some (jsTrim (replaceOnce (pLit ",".toList) [] (sliceStr l st en)))
  | none => none

/-- The windowed date scan (`start` to `endIdx` inclusive), fuelled by
the window size. -/
def findDateFuel (header : List (List Char)) : ℕ → ℕ → Option (List Char)
  | 0, _ => none
  | fuel + 1, i =>
    match dateOfLine (header.getD i []) with
    | some d => some d
    | none => findDateFuel header fuel (i + 1)

/-- The whole-header date scan. -/
def findDateAll : List (List Char) → Option (List Char)
  | [] => none
  | l :: rest =>
    match dateOfLine l with
    | some d => some d
    | none => findDateAll rest

/-- Model of `extractHeaderInfo`: volume marker in the first 1000 lines,
date searched in a window around it (or globally as fallback). -/
def extractHeaderInfo (lines : List (List Char)) : List Char × List Char :=
  let header := lines.take 1000
  match findVol header 0 with
  | some (volIdx, m0) =>
    let vol1 := jsTrim (collapseWs m0)
    let start := volIdx - 5
    let endIdx := min (header.length - 1) (volIdx + 8)
    let date :=
      match findDateFuel header (endIdx + 1 - start) start with
      | some d => d
      | none =>
        match findDateAll header with
        | some d => d
        | none => []
    (if vol1.isEmpty then vol1 else jsTrim (collapseWs vol1), date)
  | none =>
    ([], match findDateAll header with
      | some d => d
      | none => [])

/-- The estate-marker lookahead: up to five lines past the cause line,
then the block of that line and the next two, non-empty ones joined by a
space. -/
def estateSearchFuel (suffix : List (List Char)) : ℕ → ℕ → Option (List Char)
  | 0, _ => none
  | fuel + 1, j =>
    if pTest estatePat (suffix.getD j []) then
      some (joinSpace ([suffix.getD j [], suffix.getD (j + 1) [],
        suffix.getD (j + 2) []].filter (fun l => !l.isEmpty)))
    else estateSearchFuel suffix fuel (j + 1)

/-- `for (let j = 0; j <= 5; j++) ...`. -/
def estateBlockOf (suffix : List (List Char)) : Option (List Char) :=
  estateSearchFuel suffix 6 0

/-- The name-cleanup chain applied to the estate block. -/
def cleanName (estateBlock : List Char) : List Char :=
  let n1 := jsTrim (gReplace theLatePat []
    (gReplace deceasedPat [] (replaceOnce estateStripPat [] estateBlock)))
  let n2 := splitFirst whoDiedPat n1
  let n3 := splitFirst (pLit ",".toList) n2
  jsTrim (replaceOnce ofPlacePat [] n3)

/-- The body pass of `extractGazetteRecords`: a single forward scan
carrying the current court station. -/
def extractLoop (vol date : List Char) :
    List Char → List (List Char) → List GazetteRecord
  | _, [] => []
  | station, line :: rest =>
    match searchFrom stationPat line 0 with
    | some (_, _, caps) =>
      let typeRaw := jsUpper (caps.getD 0 [])
      let ctype :=
        if containsSub "HIGH".toList typeRaw then "High Court".toList
        else "Magistrates Court".toList
      let loc := toTitle (stationLocClean (caps.getD 1 []))
      extractLoop vol date (loc ++ ' ' :: ctype) rest
    | none =>
      match searchFrom causePat line 0 with
      | none => extractLoop vol date station rest
      | some (_, _, caps) =>
        match estateBlockOf (line :: rest) with
        | none => extractLoop vol date station rest
        | some block =>
          let name := cleanName block
          if name.isEmpty then extractLoop vol date station rest
          else
            { court_station :=
                if station.isEmpty then "Unknown Court".toList else station
              cause_no := jsTrim (collapseWs (caps.getD 0 []))
              name_of_deceased := name
              status_at_gp := "Published".toList
              volume_no := vol
              date_published := date } :: extractLoop vol date station rest

/-- Model of `extractGazetteRecords`. -/
def extractGazetteRecords (pdfText : List Char) : List GazetteRecord :=
  let raw := pdfText.map (fun c => if c.toNat == 0xa0 then ' ' else c)
  let lines := ((splitLines raw).map jsTrim).filter (fun l => !l.isEmpty)
  let hd := extractHeaderInfo lines
  extractLoop hd.1 hd.2 [] lines

/-- Claim C3: on the three-line input the extractor yields exactly one
record with court station `"Nairobi High Court"`, cause number
`"123 OF 2020"` and decedent name `"JOHN KAMAU"`. -/
theorem C3_extract_example :
    (extractGazetteRecords
        ("IN THE HIGH COURT OF KENYA AT NAIROBI\nCAUSE NO. 123 OF 2020\nESTATE OF JOHN KAMAU DECEASED".toList)).map
        (fun r => (r.court_station, r.cause_no, r.name_of_deceased))
      = [("Nairobi High Court".toList, "123 OF 2020".toList,
          "JOHN KAMAU".toList)] := by
  set_option maxRecDepth 100000 in decide

end Gazette
